import Mathlib

/-!
Verification development for the `orfe-upcoming` event pipeline.

The Python sources under `src/` are shallowly embedded:

* strings are `List Char` / `String` (Python `str` indexing and slicing is
  by code point, as is `List Char`); Python `str.strip` / `str.lower` /
  `str.split` / substring search are translated character by character;
* HTML documents are rose trees (`Node` / `NodeList`), standing for the
  BeautifulSoup parse tree; element attributes are omitted because the
  extraction functions under verification never consult them;
* the network boundary (`requests.get` + page scraping inside
  `fetch_subtitle` / `fetch_content_body` / `fetch_raw_details_html`) is an
  oracle `fetch : String → Option String`, where `none` models a raised
  exception and `some ""` models the documented "miss" result;
* Python dicts are association lists with in-place update semantics.
-/

/-! ## Python string primitives (`src/transform.py`, `src/enrich.py`) -/

/-- Python whitespace class (`str.strip`, `str.split`, regex `\s`), ASCII part. -/
def isSp (c : Char) : Bool :=
  c == ' ' || c == '\t' || c == '\n' || c == '\r' || c == '\x0b' || c == '\x0c'

/-- Drop trailing characters satisfying `p` (helper for `str.strip`). -/
def dropEndWhile (p : Char → Bool) (l : List Char) : List Char :=
  (l.reverse.dropWhile p).reverse

/-- Python `str.strip()` on code points. -/
def stripChars (l : List Char) : List Char :=
  dropEndWhile isSp (l.dropWhile isSp)

/-- Python `str.lower()` (ASCII; the markers and tags involved are ASCII). -/
def lowerChars (l : List Char) : List Char :=
  l.map Char.toLower

/-- Boolean "is prefix" test on code points. -/
def isPrefixB : List Char → List Char → Bool
  | [], _ => true
  | _ :: _, [] => false
  | c :: p, d :: s => c == d && isPrefixB p s

/-- Python `str.find(pat)`: index of the first occurrence of `pat`, if any. -/
def subIdx? (pat : List Char) : List Char → Option Nat
  | [] => if isPrefixB pat [] then some 0 else none
  | c :: t => if isPrefixB pat (c :: t) then some 0 else (subIdx? pat t).map (· + 1)

/-- Python `pat in s` (substring containment). -/
def containsS (pat s : List Char) : Bool :=
  (subIdx? pat s).isSome

/-- Accumulator for `pyWords` (current word, reversed). -/
def pyWordsAux : List Char → List Char → List (List Char)
  | [], acc => if acc.isEmpty then [] else [acc.reverse]
  | c :: t, acc =>
    if isSp c then
      if acc.isEmpty then pyWordsAux t [] else acc.reverse :: pyWordsAux t []
    else pyWordsAux t (c :: acc)

/-- Python `str.split()` (split on whitespace runs, no empty parts). -/
def pyWords (l : List Char) : List (List Char) :=
  pyWordsAux l []

/-- Python `" ".join(s.split())`: collapse internal whitespace to single spaces. -/
def collapseWs (l : List Char) : List Char :=
  List.intercalate [' '] (pyWords l)

/-- `collapseRuns p rep l`: replace each maximal run of characters satisfying
`p` by the single character `rep` (regex `re.sub(p+, rep, l)`); the flag
records whether the previous character was inside a run. -/
def collapseRuns (p : Char → Bool) (rep : Char) : Bool → List Char → List Char
  | _, [] => []
  | inRun, c :: t =>
    if p c then
      if inRun then collapseRuns p rep true t else rep :: collapseRuns p rep true t
    else c :: collapseRuns p rep false t

/-- Core of `escape_commas` / `escape_semicolons`
(`re.sub(r"(?<!\\)d", r"\\d", value)`): insert a backslash before every
occurrence of `d` whose preceding character in the input is not a backslash.
`prev` is the previous character of the original string (the lookbehind
inspects the input, not the partially built output). -/
def escapeCharAux (d : Char) : Option Char → List Char → List Char
  | _, [] => []
  | prev, c :: t =>
    if c == d && prev != some '\\' then
      '\\' :: c :: escapeCharAux d (some c) t
    else
      c :: escapeCharAux d (some c) t

/-- `src/transform.py` `escape_commas`. -/
def escape_commas (s : String) : String :=
  ⟨escapeCharAux ',' none s.data⟩

/-- `src/transform.py` `escape_semicolons`. -/
def escape_semicolons (s : String) : String :=
  ⟨escapeCharAux ';' none s.data⟩

/-! ### Idempotence of the escaping pass (claim C10 support) -/

/-- `noBare d prev l`: every occurrence of `d` in `l` is immediately preceded
by a backslash (`prev` being the character just before `l`). -/
def noBare (d : Char) : Option Char → List Char → Prop
  | _, [] => True
  | prev, c :: t => (c = d → prev = some '\\') ∧ noBare d (some c) t

theorem escapeCharAux_of_noBare (d : Char) :
    ∀ (prev : Option Char) (l : List Char), noBare d prev l →
      escapeCharAux d prev l = l := by
  intro prev l
  induction l generalizing prev with
  | nil => intro _; rfl
  | cons c t ih =>
    intro h
    rcases h with ⟨h1, h2⟩
    unfold escapeCharAux
    by_cases hc : c = d
    · have : prev = some '\\' := h1 hc
      simp [this, ih (some c) h2]
    · have : (c == d) = false := by simpa using hc
      simp [this, ih (some c) h2]

theorem noBare_escapeCharAux (d : Char) (hd : d ≠ '\\') :
    ∀ (prev : Option Char) (l : List Char), noBare d prev (escapeCharAux d prev l) := by
  intro prev l
  induction l generalizing prev with
  | nil => exact trivial
  | cons c t ih =>
    unfold escapeCharAux
    by_cases hcond : (c == d && prev != some '\\') = true
    · simp only [hcond, if_pos]
      refine ⟨?_, ?_, ?_⟩
      · intro h; exact absurd h (by simpa using hd.symm)
      · intro _; rfl
      · exact ih (some c)
    · simp only [hcond, if_neg, Bool.not_eq_true]
      refine ⟨?_, ih (some c)⟩
      intro hc
      rcases Bool.and_eq_false_iff.mp (Bool.not_eq_true _ ▸ hcond) with h | h
      · exact absurd (by simpa using hc) (by simpa using h)
      · simpa using h

theorem escapeCharAux_idem (d : Char) (hd : d ≠ '\\') (l : List Char) :
    escapeCharAux d none (escapeCharAux d none l) = escapeCharAux d none l :=
  escapeCharAux_of_noBare d none _ (noBare_escapeCharAux d hd none l)

/-- **C10.** The comma- and semicolon-escaping functions of
`src/transform.py` are idempotent: a delimiter that is already preceded by a
backslash is never escaped again, so re-running the description/speaker
mapping over its own output never double-escapes. -/
theorem escape_commas_semicolons_idem (s : String) :
    escape_commas (escape_commas s) = escape_commas s ∧
    escape_semicolons (escape_semicolons s) = escape_semicolons s := by
  constructor
  · show (⟨escapeCharAux ',' none (escapeCharAux ',' none s.data)⟩ : String) = _
    rw [escapeCharAux_idem ',' (by decide) s.data]; rfl
  · show (⟨escapeCharAux ';' none (escapeCharAux ';' none s.data)⟩ : String) = _
    rw [escapeCharAux_idem ';' (by decide) s.data]; rfl

/-! ## Output records (`dict` values of the pipeline)

A record value is either a plain string or the three-key location object
built by `parse_location`.  Records are Python dicts: association lists with
insertion order, assignment overwriting in place and `setdefault` appending. -/

inductive Value where
  | str (s : String)
  | loc (name id detail : String)
deriving Repr, DecidableEq

/-- Python `str(value)`.  For a string it is the string itself; for the
location dict it is the dict's `repr` (braces, quoted keys and values) —
rendered here without the quote characters; all that is relied on below is
that this representation is never empty or blank. -/
def Value.pyStr : Value → String
  | .str s => s
  | .loc n i d =>
    "\x7bname: " ++ n ++ ", id: " ++ i ++ ", detail: " ++ d ++ "\x7d"

/-- Python truthiness of a record value (`if not value`): a string is falsy
iff empty; the three-key location dict is always truthy. -/
def Value.pyTruthy : Value → Bool
  | .str s => s ≠ ""
  | .loc _ _ _ => true

/-- Python `str.strip()` packaged for `String`. -/
def pyStrip (s : String) : String :=
  ⟨stripChars s.data⟩

/-- Python `str.lower()` packaged for `String`. -/
def pyLower (s : String) : String :=
  ⟨lowerChars s.data⟩

/-- Association lists with Python dict update semantics. -/
abbrev PyDict (β : Type) := List (String × β)

/-- `d.get(k)`.  Recursive formulation of lookup on an association list. -/
def alGet {β : Type} : PyDict β → String → Option β
  | [], _ => none
  | p :: t, k => if p.1 == k then some p.2 else alGet t k

/-- `d[k] = v`: overwrite in place when the key is present (dict keys are
unique, so replacing the first binding is dict assignment), append at the
end otherwise. -/
def alSet {β : Type} : PyDict β → String → β → PyDict β
  | [], k, v => [(k, v)]
  | p :: t, k, v => if p.1 == k then (k, v) :: t else p :: alSet t k v

/-- `d.setdefault(k, v)` -/
def alSetD {β : Type} (r : PyDict β) (k : String) (v : β) : PyDict β :=
  if (alGet r k).isSome then r else r ++ [(k, v)]

abbrev Record := PyDict Value

theorem alGet_cons {β : Type} (p : String × β) (t : PyDict β) (k : String) :
    alGet (p :: t) k = if p.1 == k then some p.2 else alGet t k := rfl

theorem alGet_append_right {β : Type} (r s : PyDict β) (k : String)
    (h : alGet r k = none) : alGet (r ++ s) k = alGet s k := by
  induction r with
  | nil => rfl
  | cons p t ih =>
    rw [alGet_cons] at h
    by_cases hp : (p.1 == k) = true
    · simp [hp] at h
    · rw [if_neg (by simpa using hp)] at h
      show alGet (p :: (t ++ s)) k = alGet s k
      rw [alGet_cons, if_neg (by simpa using hp)]
      exact ih h

theorem alGet_alSet_self {β : Type} (r : PyDict β) (k : String) (v : β) :
    alGet (alSet r k v) k = some v := by
  induction r with
  | nil => simp [alGet, alSet]
  | cons p t ih =>
    unfold alSet
    by_cases hp : (p.1 == k) = true
    · simp [hp, alGet]
    · simp only [hp, if_neg, Bool.not_eq_true]
      unfold alGet
      simp only [hp]
      simpa using ih

theorem alGet_alSet_ne {β : Type} (r : PyDict β) (k k' : String) (v : β) (h : k' ≠ k) :
    alGet (alSet r k v) k' = alGet r k' := by
  induction r with
  | nil =>
    simp [alGet, alSet, show (k == k') = false by simpa using Ne.symm h]
  | cons p t ih =>
    unfold alSet
    by_cases hp : (p.1 == k) = true
    · have hpk : p.1 = k := by simpa using hp
      unfold alGet
      have h1 : (k == k') = false := by simpa using fun hh => h (hh.symm)
      have h2 : (p.1 == k') = false := by subst hpk; exact h1
      simp [hp, h1, h2]
    · simp only [hp, if_neg, Bool.not_eq_true]
      unfold alGet
      cases hq : (p.1 == k') with
      | true => simp [hq]
      | false => simpa [hq] using ih

theorem alGet_alSetD_isSome {β : Type} (r : PyDict β) (k : String) (v : β) :
    (alGet (alSetD r k v) k).isSome := by
  unfold alSetD
  by_cases h : (alGet r k).isSome
  · simp [h]
  · simp only [h, if_neg, Bool.not_eq_true]
    have hn : alGet r k = none := by
      cases hf : alGet r k with
      | none => rfl
      | some x => rw [hf] at h; simp at h
    rw [alGet_append_right _ _ _ hn]
    simp [alGet]

theorem alGet_alSetD_of_isSome {β : Type} (r : PyDict β) (k k' : String) (v : β)
    (h : (alGet r k').isSome) : (alGet (alSetD r k v) k').isSome := by
  unfold alSetD
  by_cases hp : (alGet r k).isSome
  · simpa [hp]
  · simp only [hp, if_neg, Bool.not_eq_true]
    cases hf : alGet r k' with
    | none => rw [hf] at h; simp at h
    | some x =>
      have : alGet (r ++ [(k, v)]) k' = some x := by
        clear h hp
        induction r with
        | nil => simp [alGet] at hf
        | cons p t ih =>
          unfold alGet at hf ⊢
          by_cases hq : (p.1 == k') = true
          · simpa [hq] using hf
          · rw [if_neg (by simpa using hq)] at hf
            simp only [List.cons_append]
            rw [if_neg (by simpa using hq)]
            exact ih hf
      rw [this]; rfl

theorem alGet_alSet_isSome_of_isSome {β : Type} (r : PyDict β) (k k' : String) (v : β)
    (h : (alGet r k').isSome) : (alGet (alSet r k v) k').isSome := by
  by_cases hk : k' = k
  · subst hk; rw [alGet_alSet_self]; rfl
  · rw [alGet_alSet_ne _ _ _ _ hk]; exact h

/-! ## `src/transform.py`: calendar-record mapping -/

/-- Values of raw calendar-entry attributes (`ics` event fields): a string,
a collection of category strings (list/tuple; the code treats sets the same
way after sorting), or a start/end instant.  An Arrow instant is abstracted
to its absolute timestamp (a `Nat`): timezone conversion never changes the
instant, and no claim depends on the rendered text. -/
inductive Attr where
  | str (s : String)
  | strList (l : List String)
  | time (t : Nat)
deriving Repr, DecidableEq

/-- A raw calendar entry: attribute name → value (`getattr(event, a, None)`
is association-list lookup). -/
abbrev Event := PyDict Attr

/-- `TransformConfig` of `src/transform.py` (declarative mapping config). -/
structure TransformConfig where
  target_timezone : String := "America/New_York"
  time_format : String := "YYYY-MM-DDTHH:mm:ss"
  field_mappings : PyDict String :=
    [("uid", "guid"), ("begin", "startTime"), ("end", "endTime"),
     ("url", "urlRef"), ("categories", "series"),
     ("description", "content"), ("name", "speaker")]
  masked_fields : List String := ["dtstamp", "sequence", "transp", "class"]
  placeholders : PyDict String :=
    [("title", ""), ("cancelled", ""), ("bannerImage", ""), ("itemType", "advertisement")]
  copies : PyDict String := []
  join_categories : Bool := true
  categories_delimiter : String := ","
  preserve_description_escapes : Bool := true
  collapse_whitespace_in_description : Bool := true

/-- `clean_text`: replace `\r` by `\n`; when collapsing, turn newline runs
into single spaces (`re.sub(r"\n+", " ")`), then whitespace runs into single
spaces (`re.sub(r"\s+", " ")`), then strip. -/
def clean_text (value : String) (collapse : Bool) : String :=
  if value = "" then ""
  else
    let l := value.data.map (fun c => if c = '\r' then '\n' else c)
    if collapse then
      ⟨stripChars (collapseRuns isSp ' ' false (collapseRuns (· == '\n') ' ' false l))⟩
    else ⟨l⟩

/-- `parse_location`: split on the first hyphen; `"<detail> - <name>"`,
no hyphen ⇒ all of it is `detail`; missing/empty input ⇒ all empty. -/
def parse_location (raw : Option String) : Value :=
  match raw with
  | none => .loc "" "" ""
  | some s =>
    if s = "" then .loc "" "" ""
    else
      match subIdx? ['-'] s.data with
      | some i =>
        .loc ⟨stripChars (s.data.drop (i + 1))⟩ "" ⟨stripChars (s.data.take i)⟩
      | none => .loc "" "" ⟨stripChars s.data⟩

/-- `format_time` for an actual instant.  The Arrow localization/format call
is an external-library boundary: it deterministically renders the instant
with the configured zone and format, so it is modelled as an uninterpreted
injective encoding of `(instant, config)`; no claim inspects the text. -/
def renderTime (t : Nat) (cfg : TransformConfig) : String :=
  cfg.time_format ++ "|" ++ cfg.target_timezone ++ "|" ++ toString t

/-- Python `str(attr)` for the non-special mapping branch (`out[target] =
str(val)`).  Lists render via `repr`; the exact text is irrelevant to every
claim. -/
def Attr.pyStr : Attr → String
  | .str s => s
  | .strList l => "[" ++ String.intercalate ", " (l.map (fun s => "'" ++ s ++ "'")) ++ "]"
  | .time t => "<Arrow " ++ toString t ++ ">"

/-- Python `sorted` on strings (stable; insertion into an already sorted
list). -/
def insertStr (a : String) : List String → List String
  | [] => [a]
  | b :: t => if a ≤ b then a :: b :: t else b :: insertStr a t

def sortStrings : List String → List String
  | [] => []
  | a :: t => insertStr a (sortStrings t)

/-- One `(attr, target)` step of the mapping loop of `transform_event`
(lines 95–120 of `src/transform.py`).  Returns `none` exactly where the
Python would raise: a list value reaching the `begin`/`end` branch has no
`.format` (for a string value, `str.format(fmt)` returns the string itself
when it contains no braces, which is the modelled case). -/
def mapOne (event : Event) (cfg : TransformConfig) (out : Record)
    (attr target : String) : Option Record :=
  if cfg.masked_fields.contains attr then some out
  else
    match alGet event attr with
    | none => some out
    | some val =>
      if attr == "begin" || attr == "end" then
        match val with
        | .time t => some (alSet out target (.str (renderTime t cfg)))
        | .str s => some (alSet out target (.str s))
        | .strList _ => none
      else if attr == "description" then
        let d := val.pyStr
        let d := if cfg.preserve_description_escapes
                 then escape_commas (escape_semicolons d) else d
        let d := clean_text d cfg.collapse_whitespace_in_description
        some (alSet out target (.str d))
      else if attr == "name" then
        some (alSet out target (.str (escape_commas val.pyStr)))
      else if attr == "categories" then
        match val with
        | .strList l =>
          if cfg.join_categories then
            some (alSet out target
              (.str (String.intercalate cfg.categories_delimiter (sortStrings l))))
          else some (alSet out target (.str (l.headD "")))
        | v => some (alSet out target (.str v.pyStr))
      else some (alSet out target (.str val.pyStr))

/-- The mapping loop over `cfg.field_mappings`. -/
def mapFields (event : Event) (cfg : TransformConfig) :
    List (String × String) → Record → Option Record
  | [], out => some out
  | (attr, target) :: rest, out =>
    match mapOne event cfg out attr target with
    | none => none
    | some out' => mapFields event cfg rest out'

/-- The raw string handed to `parse_location` (`getattr(event, "location",
None)`); a present non-string value would crash `raw.split` in Python and is
out of scope of every claim, so it is modelled through `Attr.pyStr`. -/
def locAttr (event : Event) : Option String :=
  (alGet event "location").map Attr.pyStr

/-- `transform_event` (`src/transform.py` lines 91–134): mapping loop, then
location parsing, then placeholder `setdefault`s, then field copies.
`none` models an uncaught exception from the mapping loop. -/
def transform_event (event : Event) (cfg : TransformConfig) : Option Record :=
  match mapFields event cfg cfg.field_mappings [] with
  | none => none
  | some out =>
    let out := alSet out "location" (parse_location (locAttr event))
    let out := cfg.placeholders.foldl (fun o kv => alSetD o kv.1 (.str kv.2)) out
    let out := cfg.copies.foldl
      (fun o kv => match alGet o kv.2 with
                   | some v => alSet o kv.1 v
                   | none => o) out
    some out

/-! ### Sorting in `transform_calendar` (`key=lambda e: e.begin or ""`)

The sort key is the begin instant when present and truthy, else the empty
string.  Python compares two strings or two Arrow instants fine, but a
string/Arrow comparison raises `TypeError` (`str.__lt__` and
`Arrow.__gt__` both return `NotImplemented`); `none` models that error.
`sorted` is stable, so on comparable inputs a stable insertion sort
produces the identical list. -/

inductive SKey where
  | strKey (s : String)
  | timeKey (t : Nat)
deriving Repr, DecidableEq

def beginKey (e : Event) : SKey :=
  match alGet e "begin" with
  | some (.time t) => .timeKey t
  | some (.str s) => .strKey s
  | some (.strList _) => .strKey ""
  | none => .strKey ""

/-- `a <= b` on sort keys; `none` = Python `TypeError` on mixed types. -/
def keyLe : SKey → SKey → Option Bool
  | .strKey a, .strKey b => some (decide (a ≤ b))
  | .timeKey a, .timeKey b => some (decide (a ≤ b))
  | _, _ => none

def insertE {α : Type} (key : α → SKey) (a : α) : List α → Option (List α)
  | [] => some [a]
  | b :: t =>
    match keyLe (key a) (key b) with
    | none => none
    | some true => some (a :: b :: t)
    | some false => (insertE key a t).map (b :: ·)

/-- Python `sorted(l, key=...)`, stable, propagating comparison `TypeError`. -/
def sortE {α : Type} (key : α → SKey) : List α → Option (List α)
  | [] => some []
  | a :: t =>
    match sortE key t with
    | none => none
    | some t' => insertE key a t'

/-- `transform_calendar` (`src/transform.py` lines 137–140): sort the raw
entries by `e.begin or ""`, then map each through `transform_event`.
`none` models an uncaught exception (sort `TypeError` or a mapping error). -/
def transform_calendar (entries : List Event) (cfg : TransformConfig) :
    Option (List Record) :=
  match sortE beginKey entries with
  | none => none
  | some sorted => sorted.mapM (fun e => transform_event e cfg)

/-! ### Key-presence facts about `transform_event` (claim C1) -/

theorem alGet_append_left {β : Type} (r s : PyDict β) (k : String) (x : β)
    (h : alGet r k = some x) : alGet (r ++ s) k = some x := by
  induction r with
  | nil => simp [alGet] at h
  | cons p t ih =>
    rw [alGet_cons] at h
    by_cases hp : (p.1 == k) = true
    · rw [if_pos hp] at h
      show alGet (p :: (t ++ s)) k = some x
      rw [alGet_cons, if_pos hp]
      exact h
    · rw [if_neg (by simpa using hp)] at h
      show alGet (p :: (t ++ s)) k = some x
      rw [alGet_cons, if_neg (by simpa using hp)]
      exact ih h

theorem alGet_alSetD_pres {β : Type} (r : PyDict β) (k k' : String) (v x : β)
    (h : alGet r k' = some x) : alGet (alSetD r k v) k' = some x := by
  unfold alSetD
  by_cases hp : (alGet r k).isSome
  · simpa [hp]
  · simp only [hp, if_neg, Bool.not_eq_true]
    exact alGet_append_left _ _ _ _ h

/-- `mapOne` only ever assigns keys, so presence of a key is monotone. -/
theorem mapOne_mono (event : Event) (cfg : TransformConfig) (out out' : Record)
    (a t : String) (h : mapOne event cfg out a t = some out') (k : String)
    (hk : (alGet out k).isSome) : (alGet out' k).isSome := by
  unfold mapOne at h
  by_cases hm : cfg.masked_fields.contains a = true
  · rw [if_pos hm] at h
    cases h; exact hk
  · rw [if_neg hm] at h
    cases hv : alGet event a with
    | none => rw [hv] at h; cases h; exact hk
    | some val =>
      rw [hv] at h
      dsimp only at h
      by_cases hbe : (a == "begin" || a == "end") = true
      · rw [if_pos hbe] at h
        cases val with
        | time tm => cases h; exact alGet_alSet_isSome_of_isSome _ _ _ _ hk
        | str s => cases h; exact alGet_alSet_isSome_of_isSome _ _ _ _ hk
        | strList l => cases h
      · rw [if_neg hbe] at h
        by_cases hd : (a == "description") = true
        · rw [if_pos hd] at h; cases h
          exact alGet_alSet_isSome_of_isSome _ _ _ _ hk
        · rw [if_neg hd] at h
          by_cases hn : (a == "name") = true
          · rw [if_pos hn] at h; cases h
            exact alGet_alSet_isSome_of_isSome _ _ _ _ hk
          · rw [if_neg hn] at h
            by_cases hc : (a == "categories") = true
            · rw [if_pos hc] at h
              cases val with
              | strList l =>
                dsimp only at h
                by_cases hj : cfg.join_categories = true
                · rw [if_pos hj] at h; cases h
                  exact alGet_alSet_isSome_of_isSome _ _ _ _ hk
                · rw [if_neg hj] at h; cases h
                  exact alGet_alSet_isSome_of_isSome _ _ _ _ hk
              | str s => cases h; exact alGet_alSet_isSome_of_isSome _ _ _ _ hk
              | time tm => cases h; exact alGet_alSet_isSome_of_isSome _ _ _ _ hk
            · rw [if_neg hc] at h; cases h
              exact alGet_alSet_isSome_of_isSome _ _ _ _ hk

theorem mapFields_mono (event : Event) (cfg : TransformConfig) :
    ∀ (ms : List (String × String)) (out out' : Record),
      mapFields event cfg ms out = some out' →
      ∀ k, (alGet out k).isSome → (alGet out' k).isSome := by
  intro ms
  induction ms with
  | nil => intro out out' h k hk; cases h; exact hk
  | cons m rest ih =>
    intro out out' h k hk
    unfold mapFields at h
    cases hm : mapOne event cfg out m.1 m.2 with
    | none => rw [hm] at h; cases h
    | some mid =>
      rw [hm] at h
      exact ih mid out' h k (mapOne_mono event cfg out mid m.1 m.2 hm k hk)

/-- Processing a mapping pair whose source attribute is present and unmasked
assigns the target key. -/
theorem mapOne_sets (event : Event) (cfg : TransformConfig) (out out' : Record)
    (a t : String) (h : mapOne event cfg out a t = some out')
    (hmask : cfg.masked_fields.contains a = false)
    (hattr : (alGet event a).isSome) : (alGet out' t).isSome := by
  unfold mapOne at h
  rw [if_neg (by rw [hmask]; exact Bool.false_ne_true)] at h
  cases hv : alGet event a with
  | none => rw [hv] at hattr; simp at hattr
  | some val =>
    rw [hv] at h
    dsimp only at h
    by_cases hbe : (a == "begin" || a == "end") = true
    · rw [if_pos hbe] at h
      cases val with
      | time tm => cases h; rw [alGet_alSet_self]; rfl
      | str s => cases h; rw [alGet_alSet_self]; rfl
      | strList l => cases h
    · rw [if_neg hbe] at h
      by_cases hd : (a == "description") = true
      · rw [if_pos hd] at h; cases h; rw [alGet_alSet_self]; rfl
      · rw [if_neg hd] at h
        by_cases hn : (a == "name") = true
        · rw [if_pos hn] at h; cases h; rw [alGet_alSet_self]; rfl
        · rw [if_neg hn] at h
          by_cases hc : (a == "categories") = true
          · rw [if_pos hc] at h
            cases val with
            | strList l =>
              dsimp only at h
              by_cases hj : cfg.join_categories = true
              · rw [if_pos hj] at h; cases h; rw [alGet_alSet_self]; rfl
              · rw [if_neg hj] at h; cases h; rw [alGet_alSet_self]; rfl
            | str s => cases h; rw [alGet_alSet_self]; rfl
            | time tm => cases h; rw [alGet_alSet_self]; rfl
          · rw [if_neg hc] at h; cases h; rw [alGet_alSet_self]; rfl

theorem mapFields_sets (event : Event) (cfg : TransformConfig) :
    ∀ (ms : List (String × String)) (out out' : Record),
      mapFields event cfg ms out = some out' →
      ∀ mv ∈ ms, cfg.masked_fields.contains mv.1 = false →
        (alGet event mv.1).isSome → (alGet out' mv.2).isSome := by
  intro ms
  induction ms with
  | nil => intro out out' _ mv hmv; cases hmv
  | cons m rest ih =>
    intro out out' h mv hmv hmask hattr
    unfold mapFields at h
    cases hm : mapOne event cfg out m.1 m.2 with
    | none => rw [hm] at h; cases h
    | some mid =>
      rw [hm] at h
      rcases List.mem_cons.mp hmv with heq | hmem
      · subst heq
        exact mapFields_mono event cfg rest mid out' h mv.2
          (mapOne_sets event cfg out mid mv.1 mv.2 hm hmask hattr)
      · exact ih mid out' h mv hmem hmask hattr

/-- Folding `setdefault`s preserves key presence. -/
theorem placeholders_fold_mono :
    ∀ (ps : PyDict String) (out : Record) (k : String), (alGet out k).isSome →
      (alGet (ps.foldl (fun o p => alSetD o p.1 (.str p.2)) out) k).isSome := by
  intro ps
  induction ps with
  | nil => intro out k h; exact h
  | cons p rest ih =>
    intro out k h
    exact ih (alSetD out p.1 (.str p.2)) k (alGet_alSetD_of_isSome _ _ _ _ h)

/-- Folding `setdefault`s preserves existing values. -/
theorem placeholders_fold_pres :
    ∀ (ps : PyDict String) (out : Record) (k : String) (x : Value),
      alGet out k = some x →
      alGet (ps.foldl (fun o p => alSetD o p.1 (.str p.2)) out) k = some x := by
  intro ps
  induction ps with
  | nil => intro out k x h; exact h
  | cons p rest ih =>
    intro out k x h
    exact ih (alSetD out p.1 (.str p.2)) k x (alGet_alSetD_pres _ _ _ _ _ h)

/-- The placeholder `setdefault` fold makes every placeholder key present. -/
theorem placeholders_fold_isSome :
    ∀ (ps : PyDict String) (out : Record) (kv : String × String), kv ∈ ps →
      (alGet (ps.foldl (fun o p => alSetD o p.1 (.str p.2)) out) kv.1).isSome := by
  intro ps
  induction ps with
  | nil => intro out kv hkv; cases hkv
  | cons p rest ih =>
    intro out kv hkv
    rcases List.mem_cons.mp hkv with heq | hmem
    · subst heq
      exact placeholders_fold_mono rest _ kv.1 (alGet_alSetD_isSome out kv.1 (.str kv.2))
    · exact ih (alSetD out p.1 (.str p.2)) kv hmem

/-- The copies fold only assigns, so key presence is monotone. -/
theorem copies_fold_mono :
    ∀ (cs : PyDict String) (out : Record) (k : String), (alGet out k).isSome →
      (alGet (cs.foldl
        (fun o kv => match alGet o kv.2 with
                     | some v => alSet o kv.1 v
                     | none => o) out) k).isSome := by
  intro cs
  induction cs with
  | nil => intro out k h; exact h
  | cons p rest ih =>
    intro out k h
    apply ih
    cases hv : alGet out p.2 with
    | none => simpa [hv] using h
    | some v =>
      simp only [hv]
      exact alGet_alSet_isSome_of_isSome _ _ _ _ h

/-- `parse_location` always yields the three-key location object. -/
theorem parse_location_is_loc (r : Option String) :
    ∃ n i d, parse_location r = .loc n i d := by
  unfold parse_location
  cases r with
  | none => exact ⟨"", "", "", rfl⟩
  | some s =>
    dsimp only
    by_cases hs : s = ""
    · exact ⟨"", "", "", by simp [hs]⟩
    · rw [if_neg hs]
      cases subIdx? ['-'] s.data with
      | some i => exact ⟨_, _, _, rfl⟩
      | none => exact ⟨_, _, _, rfl⟩

/-- The built-in default configuration (no config file supplied). -/
def defaultConfig : TransformConfig := {}

/-- **C1 (amended).** For every raw calendar entry and configuration on
which `transform_event` completes, the returned record contains every key of
the placeholder configuration, contains the `location` key (a three-key
location object whenever no field copies are configured), and contains the
target key of every mapping pair whose source attribute is present and
unmasked.  A mapped key whose source attribute is absent is omitted from
the record (not set to an empty string) — see the counterexample. -/
theorem transform_event_key_invariant (event : Event) (cfg : TransformConfig)
    (rec : Record) (h : transform_event event cfg = some rec) :
    (∀ kv ∈ cfg.placeholders, (alGet rec kv.1).isSome) ∧
    ((alGet rec "location").isSome ∧
      (cfg.copies = [] → ∃ n i d, alGet rec "location" = some (.loc n i d))) ∧
    (∀ mv ∈ cfg.field_mappings, cfg.masked_fields.contains mv.1 = false →
      (alGet event mv.1).isSome → (alGet rec mv.2).isSome) := by
  unfold transform_event at h
  cases hmf : mapFields event cfg cfg.field_mappings [] with
  | none => rw [hmf] at h; cases h
  | some out =>
    rw [hmf] at h
    dsimp only at h
    cases h
    refine ⟨?_, ⟨?_, ?_⟩, ?_⟩
    · intro kv hkv
      exact copies_fold_mono _ _ _ (placeholders_fold_isSome _ _ kv hkv)
    · apply copies_fold_mono
      apply placeholders_fold_mono
      rw [alGet_alSet_self]; rfl
    · intro hc
      rw [hc]
      obtain ⟨n, i, d, hl⟩ := parse_location_is_loc (locAttr event)
      refine ⟨n, i, d, ?_⟩
      show alGet (cfg.placeholders.foldl _ _) "location" = _
      exact placeholders_fold_pres _ _ _ _ (by rw [alGet_alSet_self, hl])
    · intro mv hmv hmask hattr
      apply copies_fold_mono
      apply placeholders_fold_mono
      apply alGet_alSet_isSome_of_isSome
      exact mapFields_sets event cfg cfg.field_mappings [] out hmf mv hmv hmask hattr

/-- Concrete entry for the C1 witness: `uid` and `url` present, everything
else absent. -/
def ev0 : Event := [("uid", .str "id1"), ("url", .str "https://example.org/e")]

/-- The record produced for `ev0` under the default configuration. -/
def rec0 : Record := (transform_event ev0 defaultConfig).getD []

theorem transform_event_key_invariant_witness :
    (∀ kv ∈ defaultConfig.placeholders, (alGet rec0 kv.1).isSome) ∧
    ((alGet rec0 "location").isSome ∧
      (defaultConfig.copies = [] → ∃ n i d, alGet rec0 "location" = some (.loc n i d))) ∧
    (∀ mv ∈ defaultConfig.field_mappings, defaultConfig.masked_fields.contains mv.1 = false →
      (alGet ev0 mv.1).isSome → (alGet rec0 mv.2).isSome) :=
  transform_event_key_invariant ev0 defaultConfig rec0 (by rfl)

/-- **C1 counterexample.** `url → urlRef` is a pair of the default
field-name mapping, yet for an entry without a `url` attribute the mapped
record has no `urlRef` key at all — the claim that every mapping key is
present with an empty-string value fails. -/
theorem transform_event_missing_source_key_absent :
    ("url", "urlRef") ∈ defaultConfig.field_mappings ∧
    (transform_event [("uid", Attr.str "e1")] defaultConfig).map
      (fun r => alGet r "urlRef") = some none := by
  exact ⟨by decide, by rfl⟩

/-! ### Claim C8: sorting with the `e.begin or ""` sentinel -/

/-- Two raw entries: the first has a start instant, the second does not. -/
def mixedEntries : List Event :=
  [[("uid", Attr.str "a"), ("begin", Attr.time 10)], [("uid", Attr.str "b")]]

/-- **C8 (code bug).** On a list mixing entries with and without a start
instant, the sort key `e.begin or ""` makes Python compare a string with an
Arrow instant, which raises `TypeError` (modelled as `none`): the pipeline
does not place missing-start entries first, it crashes.  On the sub-list
whose entries all carry a start instant the same pipeline succeeds. -/
theorem transform_calendar_mixed_start_errors :
    transform_calendar mixedEntries defaultConfig = none ∧
    transform_calendar [[("uid", Attr.str "a"), ("begin", Attr.time 10)]]
      defaultConfig ≠ none ∧
    transform_calendar [[("uid", Attr.str "b")]] defaultConfig ≠ none := by
  refine ⟨by rfl, by decide, by decide⟩

/-! ## `src/enrich.py`: the enrichment orchestrator

`enrich_titles` (lines 448–507), `enrich_content` (lines 612–667) and
`enrich_raw_details` (lines 670–725) are textually identical loops modulo
the target field name (`title` / `content` / `rawEventDetails`) and the
fetch routine, so they are embedded as one parameterized function.
The fetch routine (network + page scraping) is an oracle
`fetch : String → Option String`: `none` models a raised exception
(the `except` branch), `some ""` the documented miss, `some v` a scraped
value.  A fresh fetch is recorded in `log` (the network calls performed). -/

structure EnrichStats where
  attempted : Nat := 0
  updated : Nat := 0
  skippedMissingUrl : Nat := 0
  errors : Nat := 0
deriving Repr, DecidableEq

structure EnrichState where
  cache : PyDict String := []
  stats : EnrichStats := {}
  log : List String := []
deriving Repr, DecidableEq

/-- `url = ev.get("urlRef") or ""` (a falsy value degrades to `""`). -/
def urlOf (ev : Record) : String :=
  match alGet ev "urlRef" with
  | none => ""
  | some v => if v.pyTruthy then v.pyStr else ""

/-- `existing is None or str(existing).strip() == ""` -/
def blankField (o : Option Value) : Bool :=
  match o with
  | none => true
  | some v => pyStrip v.pyStr == ""

/-- One loop iteration of the enrichment pass over one record. -/
def enrichStep (fld : String) (fetch : String → Option String) (overwrite : Bool)
    (st : EnrichState) (ev : Record) : EnrichState × Record :=
  let url := urlOf ev
  if url = "" then
    ({ st with stats := { st.stats with skippedMissingUrl := st.stats.skippedMissingUrl + 1 } }, ev)
  else
    let st := { st with stats := { st.stats with attempted := st.stats.attempted + 1 } }
    let useValue : EnrichState → String → EnrichState × Record := fun st v =>
      if v = "" then (st, ev)
      else if overwrite || blankField (alGet ev fld) then
        ({ st with stats := { st.stats with updated := st.stats.updated + 1 } },
         alSet ev fld (.str v))
      else (st, ev)
    match alGet st.cache url with
    | some v => useValue st v
    | none =>
      match fetch url with
      | none =>
        ({ st with
            stats := { st.stats with errors := st.stats.errors + 1 },
            cache := alSet st.cache url "",
            log := st.log ++ [url] }, ev)
      | some v =>
        useValue { st with cache := alSet st.cache url v, log := st.log ++ [url] } v

/-- The loop over the record list, threading cache/stats/log. -/
def enrichGo (fld : String) (fetch : String → Option String) (overwrite : Bool) :
    EnrichState → List Record → List Record × EnrichState
  | st, [] => ([], st)
  | st, ev :: rest =>
    let (st', ev') := enrichStep fld fetch overwrite st ev
    let (rest', stF) := enrichGo fld fetch overwrite st' rest
    (ev' :: rest', stF)

/-- The common shape of `enrich_titles` / `enrich_content` /
`enrich_raw_details`: no-op when disabled, else the loop starting from the
supplied session cache (`None` ⇒ fresh `{}` ⇒ `[]`). -/
def enrichField (fld : String) (fetch : String → Option String)
    (events : List Record) (enable : Bool) (overwrite : Bool)
    (cache₀ : PyDict String := []) : List Record × EnrichState :=
  if enable then enrichGo fld fetch overwrite { cache := cache₀ } events
  else (events, { cache := cache₀ })

/-- `enrich_titles(events, enable, None, overwrite)` with its fetch oracle. -/
def enrich_titles (fetch : String → Option String) (events : List Record)
    (enable overwrite : Bool) : List Record × EnrichState :=
  enrichField "title" fetch events enable overwrite

/-- `enrich_content(events, enable, None, overwrite)` with its fetch oracle. -/
def enrich_content (fetch : String → Option String) (events : List Record)
    (enable overwrite : Bool) : List Record × EnrichState :=
  enrichField "content" fetch events enable overwrite

/-- `enrich_raw_details(events, enable, None, overwrite)` with its fetch oracle. -/
def enrich_raw_details (fetch : String → Option String) (events : List Record)
    (enable overwrite : Bool) : List Record × EnrichState :=
  enrichField "rawEventDetails" fetch events enable overwrite

/-- The effective value obtained for a URL: the scraped value, with a raised
exception degrading to the empty miss (that is what gets cached). -/
def fetchVal (fetch : String → Option String) (u : String) : String :=
  (fetch u).getD ""

/-- The per-record effect of one pass, ignoring cache/stats: records are
only rewritten from the (pure) fetch result for their own URL. -/
def pureStep (fld : String) (fetch : String → Option String) (overwrite : Bool)
    (ev : Record) : Record :=
  let url := urlOf ev
  if url = "" then ev
  else
    let v := fetchVal fetch url
    if v = "" then ev
    else if overwrite || blankField (alGet ev fld) then alSet ev fld (.str v)
    else ev

/-- Cache soundness: every cached value is the fetch result of its URL. -/
def CacheInv (fetch : String → Option String) (c : PyDict String) : Prop :=
  ∀ u s, alGet c u = some s → s = fetchVal fetch u

theorem cacheInv_nil (fetch : String → Option String) : CacheInv fetch [] := by
  intro u s h; simp [alGet] at h

theorem cacheInv_set (fetch : String → Option String) (c : PyDict String)
    (hc : CacheInv fetch c) (u : String) (s : String) (hs : s = fetchVal fetch u) :
    CacheInv fetch (alSet c u s) := by
  intro u' s' h
  by_cases he : u' = u
  · subst he
    rw [alGet_alSet_self] at h
    cases h; exact hs
  · rw [alGet_alSet_ne _ _ _ _ he] at h
    exact hc u' s' h

/-- Under a sound cache, a loop step rewrites the record exactly as
`pureStep` does, and keeps the cache sound. -/
theorem enrichStep_pure (fld : String) (fetch : String → Option String)
    (overwrite : Bool) (st : EnrichState) (ev : Record)
    (hc : CacheInv fetch st.cache) :
    (enrichStep fld fetch overwrite st ev).2 = pureStep fld fetch overwrite ev ∧
    CacheInv fetch (enrichStep fld fetch overwrite st ev).1.cache := by
  unfold enrichStep pureStep
  by_cases hu : urlOf ev = ""
  · simp only [if_pos hu]
    exact ⟨trivial, hc⟩
  · simp only [if_neg hu]
    cases hcv : alGet st.cache (urlOf ev) with
    | some v =>
      have hv : v = fetchVal fetch (urlOf ev) := hc _ _ hcv
      subst hv
      by_cases hv0 : fetchVal fetch (urlOf ev) = ""
      · simp only [if_pos hv0]
        exact ⟨trivial, hc⟩
      · simp only [if_neg hv0]
        by_cases how : (overwrite || blankField (alGet ev fld)) = true
        · simp only [if_pos how]
          exact ⟨trivial, hc⟩
        · simp only [if_neg how]
          exact ⟨trivial, hc⟩
    | none =>
      cases hf : fetch (urlOf ev) with
      | none =>
        have hv0 : fetchVal fetch (urlOf ev) = "" := by simp [fetchVal, hf]
        simp only [if_pos hv0]
        exact ⟨trivial, cacheInv_set fetch st.cache hc _ _ (by simp [fetchVal, hf])⟩
      | some v =>
        have hv : v = fetchVal fetch (urlOf ev) := by simp [fetchVal, hf]
        have hinv : CacheInv fetch (alSet st.cache (urlOf ev) v) :=
          cacheInv_set fetch st.cache hc _ _ hv
        rw [hv]
        by_cases hv0 : fetchVal fetch (urlOf ev) = ""
        · simp only [if_pos hv0]
          exact ⟨trivial, hv ▸ hinv⟩
        · simp only [if_neg hv0]
          by_cases how : (overwrite || blankField (alGet ev fld)) = true
          · simp only [if_pos how]
            exact ⟨trivial, hv ▸ hinv⟩
          · simp only [if_neg how]
            exact ⟨trivial, hv ▸ hinv⟩

/-- The records produced by the loop are the pointwise `pureStep` images:
the cache never changes what is written, it only avoids repeated fetches. -/
theorem enrichGo_records (fld : String) (fetch : String → Option String)
    (overwrite : Bool) :
    ∀ (events : List Record) (st : EnrichState), CacheInv fetch st.cache →
      (enrichGo fld fetch overwrite st events).1 =
        events.map (pureStep fld fetch overwrite) := by
  intro events
  induction events with
  | nil => intro st _; rfl
  | cons ev rest ih =>
    intro st hc
    obtain ⟨h1, h2⟩ := enrichStep_pure fld fetch overwrite st ev hc
    unfold enrichGo
    simp only [List.map_cons]
    rw [← h1]
    have := ih (enrichStep fld fetch overwrite st ev).1 h2
    rw [← this]

theorem enrichField_records (fld : String) (fetch : String → Option String)
    (events : List Record) (overwrite : Bool) :
    (enrichField fld fetch events true overwrite).1 =
      events.map (pureStep fld fetch overwrite) := by
  unfold enrichField
  rw [if_pos rfl]
  exact enrichGo_records fld fetch overwrite events _ (cacheInv_nil fetch)

theorem pureStep_of_miss (fld : String) (fetch : String → Option String)
    (overwrite : Bool) (ev : Record) (h : fetchVal fetch (urlOf ev) = "") :
    pureStep fld fetch overwrite ev = ev := by
  unfold pureStep
  by_cases hu : urlOf ev = ""
  · simp [hu]
  · simp [hu, h]

/-- **C3.** In any of the three network enrichment passes (title, content,
raw details are the instantiations of `enrichField`), a record whose URL
fetch raises (`none`) or misses (`some ""`) comes out of the pass exactly
as it went in: the target field is only written from a non-empty extracted
value. -/
theorem enrich_miss_leaves_record (fld : String) (fetch : String → Option String)
    (events : List Record) (overwrite : Bool) (i : Nat) (hi : i < events.length)
    (hmiss : fetch (urlOf events[i]) = none ∨ fetch (urlOf events[i]) = some "") :
    (enrichField fld fetch events true overwrite).1[i]? = some events[i] := by
  rw [enrichField_records]
  have hv : fetchVal fetch (urlOf events[i]) = "" := by
    rcases hmiss with h | h <;> simp [fetchVal, h]
  rw [List.getElem?_map, List.getElem?_eq_getElem hi]
  simp only [Option.map_some']
  rw [pureStep_of_miss fld fetch overwrite _ hv]

theorem enrich_miss_leaves_record_witness :
    (enrichField "title" (fun _ => some "")
      [[("urlRef", Value.str "u"), ("title", Value.str "Old")]] true false).1[0]? =
      some [("urlRef", Value.str "u"), ("title", Value.str "Old")] :=
  enrich_miss_leaves_record "title" (fun _ => some "")
    [[("urlRef", Value.str "u"), ("title", Value.str "Old")]] false 0
    (by decide) (Or.inr rfl)

/-- **C4.** When the title pass obtains a non-empty subtitle `s` for a
record's URL, it replaces the `title` field exactly when overwrite mode is
on or the existing title is absent/empty/whitespace-only, and leaves the
record untouched otherwise; with `overwrite = true` the field becomes the
newly fetched value (so a run against changed upstream content replaces
it), with `overwrite = false` a non-blank title survives. -/
theorem enrich_titles_overwrite_policy (fetch : String → Option String)
    (events : List Record) (overwrite : Bool) (i : Nat) (hi : i < events.length)
    (hurl : urlOf events[i] ≠ "") (s : String)
    (hfetch : fetch (urlOf events[i]) = some s) (hs : s ≠ "") :
    (enrich_titles fetch events true overwrite).1[i]? =
      some (if overwrite || blankField (alGet events[i] "title")
            then alSet events[i] "title" (.str s) else events[i]) := by
  unfold enrich_titles
  rw [enrichField_records]
  rw [List.getElem?_map, List.getElem?_eq_getElem hi]
  simp only [Option.map_some']
  congr 1
  unfold pureStep
  have hv : fetchVal fetch (urlOf events[i]) = s := by simp [fetchVal, hfetch]
  simp only [if_neg hurl]
  rw [hv]
  rw [if_neg hs]

theorem enrich_titles_overwrite_policy_witness :
    (enrich_titles (fun _ => some "New")
      [[("urlRef", Value.str "u"), ("title", Value.str "Old")]] true true).1[0]? =
      some (if true || blankField
              (alGet [("urlRef", Value.str "u"), ("title", Value.str "Old")] "title")
            then alSet [("urlRef", Value.str "u"), ("title", Value.str "Old")]
              "title" (.str "New")
            else [("urlRef", Value.str "u"), ("title", Value.str "Old")]) :=
  enrich_titles_overwrite_policy (fun _ => some "New")
    [[("urlRef", Value.str "u"), ("title", Value.str "Old")]] true 0
    (by decide) (by decide) "New" rfl (by decide)

/-! ### Idempotence of the passes with `overwrite=False` (claim C6) -/

theorem alSet_cons {β : Type} (p : String × β) (t : PyDict β) (k : String) (v : β) :
    alSet (p :: t) k v = if p.1 == k then (k, v) :: t else p :: alSet t k v := rfl

theorem alSet_alSet_self {β : Type} :
    ∀ (r : PyDict β) (k : String) (v v' : β),
      alSet (alSet r k v) k v' = alSet r k v' := by
  intro r
  induction r with
  | nil => intro k v v'; simp [alSet]
  | cons p t ih =>
    intro k v v'
    rw [alSet_cons]
    by_cases hp : (p.1 == k) = true
    · rw [if_pos hp, alSet_cons, alSet_cons]
      simp only [hp, if_pos]
      rw [if_pos (by simp)]
    · rw [if_neg (by simpa using hp), alSet_cons, alSet_cons]
      rw [if_neg (by simpa using hp), if_neg (by simpa using hp), ih]

theorem urlOf_alSet_ne (ev : Record) (fld : String) (v : Value)
    (h : fld ≠ "urlRef") : urlOf (alSet ev fld v) = urlOf ev := by
  unfold urlOf
  rw [alGet_alSet_ne ev fld "urlRef" v (fun hh => h hh.symm)]

/-- With `overwrite=False` and the same upstream content (the same pure
fetch oracle), rewriting a record a second time changes nothing. -/
theorem pureStep_idem (fld : String) (hfld : fld ≠ "urlRef")
    (fetch : String → Option String) (ev : Record) :
    pureStep fld fetch false (pureStep fld fetch false ev) =
      pureStep fld fetch false ev := by
  by_cases hu : urlOf ev = ""
  · have h1 : pureStep fld fetch false ev = ev := by unfold pureStep; simp [hu]
    rw [h1, h1]
  · by_cases hv0 : fetchVal fetch (urlOf ev) = ""
    · have h1 : pureStep fld fetch false ev = ev := pureStep_of_miss _ _ _ _ hv0
      rw [h1, h1]
    · by_cases hb : blankField (alGet ev fld) = true
      · have h1 : pureStep fld fetch false ev =
            alSet ev fld (.str (fetchVal fetch (urlOf ev))) := by
          unfold pureStep
          simp only [if_neg hu, if_neg hv0, Bool.false_or, hb, if_pos]
        rw [h1]
        unfold pureStep
        rw [urlOf_alSet_ne ev fld _ hfld]
        simp only [if_neg hu, if_neg hv0, Bool.false_or]
        rw [alGet_alSet_self]
        by_cases hb2 : blankField (some (Value.str (fetchVal fetch (urlOf ev)))) = true
        · simp only [hb2, if_pos]
          rw [alSet_alSet_self]
        · rw [if_neg (by simpa using hb2)]
      · have h1 : pureStep fld fetch false ev = ev := by
          unfold pureStep
          simp only [if_neg hu, if_neg hv0, Bool.false_or]
          simp [hb]
        rw [h1, h1]

/-- **C6.** Running title enrichment or content enrichment a second time
with `overwrite=false` against the same upstream pages changes no record:
the second run's record list equals the first run's. -/
theorem enrich_second_run_no_change (fetch : String → Option String)
    (events : List Record) :
    (enrich_titles fetch ((enrich_titles fetch events true false).1) true false).1 =
      (enrich_titles fetch events true false).1 ∧
    (enrich_content fetch ((enrich_content fetch events true false).1) true false).1 =
      (enrich_content fetch events true false).1 := by
  constructor
  · unfold enrich_titles
    rw [enrichField_records, enrichField_records, List.map_map]
    apply List.map_congr_left
    intro ev _
    exact pureStep_idem "title" (by decide) fetch ev
  · unfold enrich_content
    rw [enrichField_records, enrichField_records, List.map_map]
    apply List.map_congr_left
    intro ev _
    exact pureStep_idem "content" (by decide) fetch ev

/-! ### The per-run URL cache and fetch count (claim C5) -/

/-- Run invariant: the fetch log has no duplicate URL, every logged URL is
already cached, and every cached value is the fetch result for its URL. -/
def RunInv (fetch : String → Option String) (st : EnrichState) : Prop :=
  st.log.Nodup ∧ (∀ u ∈ st.log, (alGet st.cache u).isSome) ∧ CacheInv fetch st.cache

theorem enrichStep_runInv (fld : String) (fetch : String → Option String)
    (overwrite : Bool) (st : EnrichState) (ev : Record)
    (h : RunInv fetch st) :
    RunInv fetch (enrichStep fld fetch overwrite st ev).1 := by
  obtain ⟨hnd, hmem, hcache⟩ := h
  unfold enrichStep
  by_cases hu : urlOf ev = ""
  · simp only [if_pos hu]
    exact ⟨hnd, hmem, hcache⟩
  · simp only [if_neg hu]
    cases hcv : alGet st.cache (urlOf ev) with
    | some v =>
      dsimp only
      by_cases hv0 : v = ""
      · simp only [if_pos hv0]
        exact ⟨hnd, hmem, hcache⟩
      · simp only [if_neg hv0]
        by_cases how : (overwrite || blankField (alGet ev fld)) = true
        · simp only [if_pos how]
          exact ⟨hnd, hmem, hcache⟩
        · simp only [if_neg how]
          exact ⟨hnd, hmem, hcache⟩
    | none =>
      have hnotlog : urlOf ev ∉ st.log := by
        intro hmem'
        have := hmem _ hmem'
        rw [hcv] at this
        simp at this
      have hnd' : (st.log ++ [urlOf ev]).Nodup := by
        rw [List.nodup_append]
        refine ⟨hnd, List.nodup_singleton _, ?_⟩
        intro a ha hb
        rcases List.mem_singleton.mp hb with rfl
        exact hnotlog ha
      cases hf : fetch (urlOf ev) with
      | none =>
        dsimp only
        refine ⟨hnd', ?_, cacheInv_set fetch st.cache hcache _ _ (by simp [fetchVal, hf])⟩
        intro u hu'
        rcases List.mem_append.mp hu' with hl | hr
        · exact alGet_alSet_isSome_of_isSome _ _ _ _ (hmem u hl)
        · rcases List.mem_singleton.mp hr with rfl
          rw [alGet_alSet_self]; rfl
      | some v =>
        dsimp only
        have hinv : CacheInv fetch (alSet st.cache (urlOf ev) v) :=
          cacheInv_set fetch st.cache hcache _ _ (by simp [fetchVal, hf])
        have hmem' : ∀ u ∈ st.log ++ [urlOf ev],
            (alGet (alSet st.cache (urlOf ev) v) u).isSome := by
          intro u hu'
          rcases List.mem_append.mp hu' with hl | hr
          · exact alGet_alSet_isSome_of_isSome _ _ _ _ (hmem u hl)
          · rcases List.mem_singleton.mp hr with rfl
            rw [alGet_alSet_self]; rfl
        by_cases hv0 : v = ""
        · simp only [if_pos hv0]
          exact ⟨hnd', hmem', hinv⟩
        · simp only [if_neg hv0]
          by_cases how : (overwrite || blankField (alGet ev fld)) = true
          · simp only [if_pos how]
            exact ⟨hnd', hmem', hinv⟩
          · simp only [if_neg how]
            exact ⟨hnd', hmem', hinv⟩

theorem enrichGo_runInv (fld : String) (fetch : String → Option String)
    (overwrite : Bool) :
    ∀ (events : List Record) (st : EnrichState), RunInv fetch st →
      RunInv fetch (enrichGo fld fetch overwrite st events).2 := by
  intro events
  induction events with
  | nil => intro st h; exact h
  | cons ev rest ih =>
    intro st h
    exact ih _ (enrichStep_runInv fld fetch overwrite st ev h)

/-- **C5.** Within one enrichment invocation, at most one fetch is
performed per distinct URL — the log of network calls is duplicate-free —
and every cached entry (including cached empty miss/error results) is
exactly the fetch outcome for its URL, which is what later records sharing
the URL reuse. -/
theorem enrich_fetch_once_per_url (fld : String) (fetch : String → Option String)
    (events : List Record) (overwrite : Bool) :
    (enrichField fld fetch events true overwrite).2.log.Nodup ∧
    ∀ u s, alGet (enrichField fld fetch events true overwrite).2.cache u = some s →
      s = fetchVal fetch u := by
  have h : RunInv fetch (enrichField fld fetch events true overwrite).2 := by
    unfold enrichField
    rw [if_pos rfl]
    exact enrichGo_runInv fld fetch overwrite events _
      ⟨List.nodup_nil, fun u hu => absurd hu (List.not_mem_nil u), cacheInv_nil fetch⟩
  exact ⟨h.1, h.2.2⟩

/-! ## `src/enrich.py` `fill_title_fallback` (lines 522–573, claim C7)

The prefix template (`FALLBACK_PREPEND_TEXT`) is a Python format string; a
well-formed one is a sequence of literal pieces and `{field}` references.
`str.format_map(_SafeDict(ev))` renders references to present fields as
their values and missing fields as `""` (the `__missing__` hook).  (The
`except` branch for a malformed template, which degrades to the raw
literal text, is outside this representation and outside the claim.) -/

inductive TmplPart where
  | lit (s : String)
  | ref (field : String)
deriving Repr, DecidableEq

/-- `raw_prefix_tmpl.format_map(_SafeDict(ev))`. -/
def renderTmpl (tmpl : List TmplPart) (ev : Record) : String :=
  String.join (tmpl.map (fun p =>
    match p with
    | .lit s => s
    | .ref f =>
      match alGet ev f with
      | some v => v.pyStr
      | none => ""))

/-- `_is_missing`: `None`, blank after stripping, or `"tbd"`
case-insensitively. -/
def isMissing (o : Option Value) : Bool :=
  match o with
  | none => true
  | some v =>
    let s := pyStrip v.pyStr
    s == "" || pyLower s == "tbd"

/-- `MAX_PREFIX_LEN` -/
def MAX_PREFIX_LEN : Nat := 128

/-- The collapsed rendered prefix for one record (empty template ⇒ `""`). -/
def renderedPrefixFor (tmpl : List TmplPart) (ev : Record) : String :=
  ⟨collapseWs (renderTmpl tmpl ev).data⟩

/-- The title written for one qualifying record: prefixed speaker when the
rendered prefix is non-empty and under the length cap, bare speaker
otherwise (an overlong prefix is discarded, never truncated). -/
def fallbackTitle (tmpl : List TmplPart) (ev : Record) (speaker : Value) : String :=
  let pfx := renderedPrefixFor tmpl ev
  if pfx ≠ "" ∧ pfx.length < MAX_PREFIX_LEN then pfx ++ " " ++ speaker.pyStr
  else speaker.pyStr

/-- One loop iteration of `fill_title_fallback`. -/
def fillStep (tmpl : List TmplPart) (overwrite : Bool) (ev : Record) :
    Record × Nat :=
  match alGet ev "speaker" with
  | none => (ev, 0)
  | some speaker =>
    if speaker.pyTruthy then
      if overwrite || isMissing (alGet ev "title") then
        (alSet ev "title" (.str (fallbackTitle tmpl ev speaker)), 1)
      else (ev, 0)
    else (ev, 0)

/-- `fill_title_fallback(events, overwrite)`: mutate qualifying records,
return the count of set titles. -/
def fill_title_fallback (tmpl : List TmplPart) (events : List Record)
    (overwrite : Bool) : List Record × Nat :=
  match events with
  | [] => ([], 0)
  | ev :: rest =>
    let (ev', n) := fillStep tmpl overwrite ev
    let (rest', m) := fill_title_fallback tmpl rest overwrite
    (ev' :: rest', n + m)

theorem fill_title_fallback_records (tmpl : List TmplPart) (overwrite : Bool) :
    ∀ events : List Record,
      (fill_title_fallback tmpl events overwrite).1 =
        events.map (fun ev => (fillStep tmpl overwrite ev).1) := by
  intro events
  induction events with
  | nil => rfl
  | cons ev rest ih =>
    unfold fill_title_fallback
    simp only [List.map_cons]
    rw [← ih]

/-- **C7.** For every record with a truthy speaker and a missing title
(absent, blank after stripping, or `"TBD"` case-insensitively), the
fallback filler sets `title` to the speaker value; with a configured prefix
template, unresolved field references render as `""`, the rendered prefix
is whitespace-collapsed, and it is prepended (with a separating space)
exactly when it is non-empty and shorter than the fixed cap — an overlong
prefix is discarded entirely, never truncated. -/
theorem fill_title_fallback_sets_title (tmpl : List TmplPart)
    (events : List Record) (overwrite : Bool) (i : Nat) (hi : i < events.length)
    (speaker : Value) (hsp : alGet events[i] "speaker" = some speaker)
    (htruthy : speaker.pyTruthy = true)
    (hmiss : isMissing (alGet events[i] "title") = true) :
    (fill_title_fallback tmpl events overwrite).1[i]? =
      some (alSet events[i] "title"
        (.str (fallbackTitle tmpl events[i] speaker))) ∧
    (renderedPrefixFor tmpl events[i] = "" ∨
        MAX_PREFIX_LEN ≤ (renderedPrefixFor tmpl events[i]).length →
      fallbackTitle tmpl events[i] speaker = speaker.pyStr) ∧
    (renderedPrefixFor tmpl events[i] ≠ "" ∧
        (renderedPrefixFor tmpl events[i]).length < MAX_PREFIX_LEN →
      fallbackTitle tmpl events[i] speaker =
        renderedPrefixFor tmpl events[i] ++ " " ++ speaker.pyStr) := by
  refine ⟨?_, ?_, ?_⟩
  · rw [fill_title_fallback_records]
    rw [List.getElem?_map, List.getElem?_eq_getElem hi]
    simp only [Option.map_some']
    congr 1
    unfold fillStep
    rw [hsp]
    simp only [htruthy, if_pos]
    have how : (overwrite || isMissing (alGet events[i] "title")) = true := by
      rw [hmiss]; simp
    simp only [how, if_pos]
  · intro h
    unfold fallbackTitle
    rcases h with h0 | hlen
    · rw [if_neg (by intro hcon; exact hcon.1 h0)]
    · rw [if_neg (by intro hcon; exact absurd hcon.2 (by omega))]
  · intro h
    unfold fallbackTitle
    rw [if_pos h]

/-- Record for the C7 witness: speaker `Alice`, title `"  TBD  "`, empty
series, with the prefix template `"A {series} Talk by"`. -/
def fbEv : Record :=
  [("speaker", Value.str "Alice"), ("title", Value.str "  TBD  "),
   ("series", Value.str "")]

def fbTmpl : List TmplPart := [.lit "A ", .ref "series", .lit " Talk by"]

theorem fill_title_fallback_sets_title_witness :
    (fill_title_fallback fbTmpl [fbEv] false).1[0]? =
      some (alSet fbEv "title" (.str (fallbackTitle fbTmpl fbEv (.str "Alice")))) ∧
    (renderedPrefixFor fbTmpl fbEv = "" ∨
        MAX_PREFIX_LEN ≤ (renderedPrefixFor fbTmpl fbEv).length →
      fallbackTitle fbTmpl fbEv (.str "Alice") = (Value.str "Alice").pyStr) ∧
    (renderedPrefixFor fbTmpl fbEv ≠ "" ∧
        (renderedPrefixFor fbTmpl fbEv).length < MAX_PREFIX_LEN →
      fallbackTitle fbTmpl fbEv (.str "Alice") =
        renderedPrefixFor fbTmpl fbEv ++ " " ++ (Value.str "Alice").pyStr) :=
  fill_title_fallback_sets_title fbTmpl [fbEv] false 0 (by decide)
    (.str "Alice") rfl (by decide) (by decide)

/-- The collapsed prefix of the witness record renders the empty `series`
reference as `""` with no double space, and the resulting title is
`"A Talk by Alice"` (the spec's own example). -/
theorem fill_title_fallback_example :
    fallbackTitle fbTmpl fbEv (.str "Alice") = "A Talk by Alice" := by decide

/-! ## `src/enrich.py`: raw-details marker extraction (lines 276–445)

`extract_abstract_from_raw_details` and `extract_bio_from_raw_details` are
textual duplicates parameterized by the marker word (`Abstract` / `Bio`),
embedded once as `extractMarker`.  The BeautifulSoup parse tree of the raw
HTML is a rose tree; `find_all(string=...)` enumerates text nodes in
pre-order, `find_all(['h1'..'h6'])` heading elements in pre-order, and the
parse root is an element named `"[document]"` whose children are the
top-level nodes. -/

mutual
inductive Node where
  | text (s : String)
  | elem (tag : String) (children : NodeList)
inductive NodeList where
  | nil
  | cons (head : Node) (tail : NodeList)
end

def NodeList.append : NodeList → NodeList → NodeList
  | .nil, l => l
  | .cons n t, l => .cons n (t.append l)

instance : Append NodeList := ⟨NodeList.append⟩

/-- Convenience constructor from a Lean list. -/
def NodeList.ofList : List Node → NodeList
  | [] => .nil
  | n :: t => .cons n (NodeList.ofList t)

def tagOfNode : Node → String
  | .text _ => ""
  | .elem tg _ => tg

/-- `Tag.get_text(strip=True)` over a sibling list: the concatenation of the
individually stripped descendant text fragments, in document order. -/
def getTextStripL : NodeList → List Char
  | .nil => []
  | .cons (.text s) t => stripChars s.data ++ getTextStripL t
  | .cons (.elem _ cs) t => getTextStripL cs ++ getTextStripL t

/-- `node.get_text(strip=True)` (for a text node, `NavigableString.get_text`
returns the string itself, stripped). -/
def getTextN : Node → List Char
  | .text s => stripChars s.data
  | .elem _ cs => getTextStripL cs

/-- The raw strings of all text nodes, in pre-order (`find_all(string=...)`
enumeration order). -/
def textsOfL : NodeList → List (List Char)
  | .nil => []
  | .cons (.text s) t => s.data :: textsOfL t
  | .cons (.elem _ cs) t => textsOfL cs ++ textsOfL t

def headingTags : List String := ["h1", "h2", "h3", "h4", "h5", "h6"]

def blockTags : List String := ["p", "div", "section", "article"]

/-- `name.startswith('h')` (used by the sibling walk's stop test). -/
def startsWithH (tg : String) : Bool :=
  match tg.data with
  | [] => false
  | c :: _ => c == 'h'

/-- What pattern 1 / pattern 1b need to know about one text node: its raw
string, its parent element's tag, `get_text` and following siblings, and the
`get_text` of its nearest block-level (`p`/`div`/`section`/`article`)
ancestor if any (the climb of lines 302–311). -/
structure TextEntry where
  s : List Char
  parentTag : String
  parentText : List Char
  parentFol : NodeList
  blockText : Option (List Char)

/-- Build the entry for a text node from its ancestor stack (innermost
first, each with its own following siblings; the stack is never empty — the
parse root is at the bottom). -/
def mkEntry (s : String) (anc : List (Node × NodeList)) : TextEntry :=
  { s := s.data
    parentTag := match anc with | [] => "" | (pn, _) :: _ => tagOfNode pn
    parentText := match anc with | [] => [] | (pn, _) :: _ => getTextN pn
    parentFol := match anc with | [] => .nil | (_, pf) :: _ => pf
    blockText := (anc.find? (fun e => blockTags.contains (tagOfNode e.1))).map
      (fun e => getTextN e.1) }

/-- Pre-order text-node entries of a sibling list under ancestor stack
`anc`. -/
def textEntriesL : NodeList → List (Node × NodeList) → List TextEntry
  | .nil, _ => []
  | .cons (.text s) t, anc => mkEntry s anc :: textEntriesL t anc
  | .cons (.elem tg cs) t, anc =>
    textEntriesL cs ((Node.elem tg cs, t) :: anc) ++ textEntriesL t anc

/-- Pre-order `h1`–`h6` elements of a sibling list, each with its following
siblings (`find_all(['h1',...,'h6'])` enumeration order). -/
def headingEntriesL : NodeList → List (Node × NodeList)
  | .nil => []
  | .cons (.text _) t => headingEntriesL t
  | .cons (.elem tg cs) t =>
    (if headingTags.contains tg then [(Node.elem tg cs, t)] else []) ++
      headingEntriesL cs ++ headingEntriesL t

/-- Just the heading elements (for stating hypotheses). -/
def headingNodesL : NodeList → List Node
  | .nil => []
  | .cons (.text _) t => headingNodesL t
  | .cons (.elem tg cs) t =>
    (if headingTags.contains tg then [Node.elem tg cs] else []) ++
      headingNodesL cs ++ headingNodesL t

/-- Whether a sibling stops the walk: `hasattr(current, 'name') and
current.name and current.name.startswith('h')` — text siblings never stop;
any element whose tag starts with `h` does. -/
def sibStops : Node → Bool
  | .text _ => false
  | .elem tg _ => startsWithH tg

/-- The walk from a heading marker over its following siblings (lines
346–357): stop (excluded) at the first `h*` element, else append each
sibling's stripped text when non-empty. -/
def collectSibs : NodeList → List (List Char)
  | .nil => []
  | .cons n t =>
    if sibStops n then []
    else (if (getTextN n).isEmpty then [] else [getTextN n]) ++ collectSibs t

/-- `" ".join(content_parts).strip()` -/
def joinParts (ps : List (List Char)) : List Char :=
  stripChars (List.intercalate [' '] ps)

/-- The colon path (lines 332–343): find the lower-cased colon pattern in
the lower-cased element text, slice the original text after it, strip; an
empty remainder contributes no part. -/
def colonAfter (colonLower textContent : List Char) : List (List Char) :=
  match subIdx? colonLower (lowerChars textContent) with
  | none => []
  | some i =>
    let after := stripChars (textContent.drop (i + colonLower.length))
    if after.isEmpty then [] else [after]

/-- The whole extraction, parameterized by the marker word.

Pattern 1: first text node containing `"<Word>:"` — its parent is the
marker; a parent tag starting with `h` walks siblings, otherwise the colon
path runs on the parent's text.  Pattern 1b: first text node containing
`<Word>` whose nearest block ancestor's text contains `"<word>:"` — that
ancestor is the marker; block tags never start with `h`, so the colon path
runs on the ancestor's text.  Pattern 2: first `h1`–`h6` element whose
stripped text equals the word case-insensitively — walk its siblings.
(The guard for empty/whitespace-only raw input corresponds to an empty
parse tree here.) -/
def extractMarker (word : String) (doc : NodeList) : List Char :=
  let wchars := word.data
  let colonPat := wchars ++ [':']
  let colonLower := lowerChars colonPat
  let wordLower := lowerChars wchars
  let entries := textEntriesL doc [(Node.elem "[document]" doc, .nil)]
  match entries.find? (fun e => containsS colonPat e.s) with
  | some e =>
    if startsWithH e.parentTag then joinParts (collectSibs e.parentFol)
    else joinParts (colonAfter colonLower e.parentText)
  | none =>
    match entries.find? (fun e => containsS wchars (stripChars e.s) &&
        (match e.blockText with
         | some bt => containsS colonLower (lowerChars bt)
         | none => false)) with
    | some e => joinParts (colonAfter colonLower ((e.blockText).getD []))
    | none =>
      match (headingEntriesL doc).find?
          (fun h => lowerChars (getTextN h.1) == wordLower) with
      | some h => joinParts (collectSibs h.2)
      | none => []

/-- `extract_abstract_from_raw_details` on the parse tree of its input. -/
def extract_abstract_from_raw_details (doc : NodeList) : String :=
  ⟨extractMarker "Abstract" doc⟩

/-- `extract_bio_from_raw_details` on the parse tree of its input. -/
def extract_bio_from_raw_details (doc : NodeList) : String :=
  ⟨extractMarker "Bio" doc⟩

/-- The parse tree of
`<div class="events-detail-main"><h2>Abstract</h2><p>We study X.</p><h2>Bio</h2><p>Prof. Y.</p></div>`
(the `class` attribute is not consulted by the extraction). -/
def exDoc : NodeList :=
  NodeList.ofList
    [Node.elem "div" (NodeList.ofList
      [Node.elem "h2" (NodeList.ofList [Node.text "Abstract"]),
       Node.elem "p" (NodeList.ofList [Node.text "We study X."]),
       Node.elem "h2" (NodeList.ofList [Node.text "Bio"]),
       Node.elem "p" (NodeList.ofList [Node.text "Prof. Y."])])]

/-- **C2.** On the spec's example raw-details HTML, the Abstract marker
matches as a heading, collection starts at its next sibling and stops
(exclusive) at the next heading, texts are joined with single spaces and
trimmed: the extractions return exactly `"We study X."` and `"Prof. Y."`. -/
theorem raw_extract_example :
    extract_abstract_from_raw_details exDoc = "We study X." ∧
    extract_bio_from_raw_details exDoc = "Prof. Y." := by
  constructor <;> rfl

/-! ### Claim C9: order-independence of the two extractions -/

/-- Abstract section whose body text mentions `"Bio: alpha"`. -/
def secAbsTricky : List Node :=
  [Node.elem "h2" (NodeList.ofList [Node.text "Abstract"]),
   Node.elem "p" (NodeList.ofList [Node.text "We study X. Bio: alpha"])]

/-- Bio section whose body text is `"Bio: beta"`. -/
def secBioTricky : List Node :=
  [Node.elem "h2" (NodeList.ofList [Node.text "Bio"]),
   Node.elem "p" (NodeList.ofList [Node.text "Bio: beta"])]

/-- Abstract section first. -/
def docAB : NodeList := NodeList.ofList (secAbsTricky ++ secBioTricky)

/-- The same two sections, Bio section first. -/
def docBA : NodeList := NodeList.ofList (secBioTricky ++ secAbsTricky)

/-- **C9 counterexample.** Two documents made of the same Abstract section
and the same Bio section in the two orders, on which the Bio extraction
returns different text: the colon-pattern search is global and first-match,
so the `"Bio:"` occurrence inside the Abstract section's body wins in one
order and the Bio section's own text wins in the other — extraction is not
scoped to its own section. -/
theorem raw_extract_order_dependent :
    extract_bio_from_raw_details docAB ≠ extract_bio_from_raw_details docBA ∧
    extract_bio_from_raw_details docAB = "alpha" ∧
    extract_bio_from_raw_details docBA = "beta" := by
  refine ⟨by decide, by rfl, by rfl⟩

/-! ### Substring-search facts used to locate the marker -/

theorem isPrefixB_mono (p q : List Char) :
    ∀ s, isPrefixB (p ++ q) s = true → isPrefixB p s = true := by
  induction p with
  | nil => intro s _; rfl
  | cons c t ih =>
    intro s h
    cases s with
    | nil => simp [isPrefixB] at h
    | cons d s' =>
      simp only [List.cons_append, isPrefixB, Bool.and_eq_true] at h ⊢
      exact ⟨h.1, ih s' h.2⟩

theorem isPrefixB_append_left (p : List Char) :
    ∀ s junk, isPrefixB p s = true → isPrefixB p (s ++ junk) = true := by
  induction p with
  | nil => intro s junk _; rfl
  | cons c t ih =>
    intro s junk h
    cases s with
    | nil => simp [isPrefixB] at h
    | cons d s' =>
      simp only [List.cons_append, isPrefixB, Bool.and_eq_true] at h ⊢
      exact ⟨h.1, ih s' junk h.2⟩

theorem subIdx?_cons (pat : List Char) (c : Char) (t : List Char) :
    subIdx? pat (c :: t) =
      if isPrefixB pat (c :: t) = true then some 0
      else (subIdx? pat t).map (· + 1) := rfl

theorem containsS_nil_pat (s : List Char) : containsS [] s = true := by
  cases s with
  | nil => rfl
  | cons c t =>
    unfold containsS
    rw [subIdx?_cons, if_pos (show isPrefixB [] (c :: t) = true from rfl)]
    rfl

theorem containsS_cons (pat : List Char) (c : Char) (t : List Char) :
    containsS pat (c :: t) = (isPrefixB pat (c :: t) || containsS pat t) := by
  unfold containsS
  rw [subIdx?_cons]
  by_cases h : isPrefixB pat (c :: t) = true
  · simp [h]
  · simp [h, Option.isSome_map]

theorem containsS_mono_pat (p q : List Char) :
    ∀ s, containsS (p ++ q) s = true → containsS p s = true := by
  intro s
  induction s with
  | nil =>
    intro h
    unfold containsS subIdx? at h ⊢
    by_cases hp : isPrefixB (p ++ q) [] = true
    · rw [if_pos (isPrefixB_mono p q [] hp)]; rfl
    · simp [hp] at h
  | cons c t ih =>
    intro h
    rw [containsS_cons] at h ⊢
    rcases Bool.or_eq_true_iff.mp h with h1 | h2
    · rw [isPrefixB_mono p q _ h1]; rfl
    · rw [ih h2]; simp

theorem containsS_append_left (pat : List Char) :
    ∀ s junk, containsS pat s = true → containsS pat (s ++ junk) = true := by
  intro s junk
  induction s with
  | nil =>
    intro h
    unfold containsS subIdx? at h
    by_cases hp : isPrefixB pat [] = true
    · cases pat with
      | nil => exact containsS_nil_pat _
      | cons c p' => simp [isPrefixB] at hp
    · simp [hp] at h
  | cons c t ih =>
    intro h
    rw [containsS_cons] at h
    show containsS pat (c :: (t ++ junk)) = true
    rw [containsS_cons]
    rcases Bool.or_eq_true_iff.mp h with h1 | h2
    · have : isPrefixB pat ((c :: t) ++ junk) = true := isPrefixB_append_left pat _ junk h1
      rw [List.cons_append] at this
      rw [this]; rfl
    · rw [ih h2]; simp

theorem containsS_dropWhile (pat : List Char) (p : Char → Bool) :
    ∀ s, containsS pat (s.dropWhile p) = true → containsS pat s = true := by
  intro s
  induction s with
  | nil => intro h; exact h
  | cons c t ih =>
    intro h
    by_cases hc : p c = true
    · rw [List.dropWhile_cons_of_pos hc] at h
      rw [containsS_cons, ih h]
      simp
    · rwa [List.dropWhile_cons_of_neg (by simpa using hc)] at h

theorem exists_dropWhile_decomp (p : Char → Bool) :
    ∀ s : List Char, ∃ j, s = j ++ s.dropWhile p := by
  intro s
  induction s with
  | nil => exact ⟨[], rfl⟩
  | cons c t ih =>
    by_cases hc : p c = true
    · obtain ⟨j, hj⟩ := ih
      exact ⟨c :: j, by rw [List.dropWhile_cons_of_pos hc]; simpa using hj⟩
    · exact ⟨[], by rw [List.dropWhile_cons_of_neg (by simpa using hc)]; rfl⟩

theorem containsS_stripChars (pat s : List Char)
    (h : containsS pat (stripChars s) = true) : containsS pat s = true := by
  unfold stripChars dropEndWhile at h
  set m := s.dropWhile isSp with hm
  obtain ⟨j, hj⟩ := exists_dropWhile_decomp isSp m.reverse
  have hmrep : m = (m.reverse.dropWhile isSp).reverse ++ j.reverse := by
    have := congrArg List.reverse hj
    rwa [List.reverse_reverse, List.reverse_append] at this
  apply containsS_dropWhile pat isSp s
  rw [← hm, hmrep]
  exact containsS_append_left pat _ _ h

/-! ### Structure of the entry lists under sections -/

theorem NodeList.append_nil : ∀ l : NodeList, l ++ .nil = l := by
  intro l
  induction l using textsOfL.induct with
  | case1 => rfl
  | case2 s t ih =>
    show NodeList.cons (.text s) (t ++ .nil) = NodeList.cons (.text s) t
    rw [ih]
  | case3 tg cs t ihcs iht =>
    show NodeList.cons (.elem tg cs) (t ++ .nil) = NodeList.cons (.elem tg cs) t
    rw [iht]

theorem NodeList.cons_append (n : Node) (t l : NodeList) :
    (NodeList.cons n t) ++ l = NodeList.cons n (t ++ l) := rfl

theorem NodeList.nil_append (l : NodeList) : NodeList.nil ++ l = l := rfl

/-- The `.s` projection of the text entries is the pre-order text list,
whatever the ancestor stack. -/
theorem textEntriesL_s_proj :
    ∀ (l : NodeList) (anc : List (Node × NodeList)),
      (textEntriesL l anc).map (·.s) = textsOfL l := by
  intro l
  induction l using textsOfL.induct with
  | case1 => intro anc; rfl
  | case2 s t ih =>
    intro anc
    show (mkEntry s anc :: textEntriesL t anc).map (·.s) = s.data :: textsOfL t
    simp only [List.map_cons]
    rw [ih anc]
    rfl
  | case3 tg cs t ihcs iht =>
    intro anc
    show ((textEntriesL cs ((Node.elem tg cs, t) :: anc)) ++ textEntriesL t anc).map (·.s) =
      textsOfL cs ++ textsOfL t
    rw [List.map_append, ihcs ((Node.elem tg cs, t) :: anc), iht anc]

/-- Splitting the text entries of an appended sibling list: the first part's
entries keep their string projection (their ancestor stacks see into the
second part, but `.s` does not depend on that), the second part's entries
are unchanged. -/
theorem textEntriesL_append :
    ∀ (l₁ l₂ : NodeList) (anc : List (Node × NodeList)),
      ∃ pre, textEntriesL (l₁ ++ l₂) anc = pre ++ textEntriesL l₂ anc ∧
        pre.map (·.s) = textsOfL l₁ := by
  intro l₁
  induction l₁ using textsOfL.induct with
  | case1 => intro l₂ anc; exact ⟨[], rfl, rfl⟩
  | case2 s t ih =>
    intro l₂ anc
    obtain ⟨pre, h1, h2⟩ := ih l₂ anc
    refine ⟨mkEntry s anc :: pre, ?_, ?_⟩
    · show mkEntry s anc :: textEntriesL (t ++ l₂) anc = _
      rw [h1]; rfl
    · simp only [List.map_cons, h2]; rfl
  | case3 tg cs t ihcs iht =>
    intro l₂ anc
    obtain ⟨pre, h1, h2⟩ := iht l₂ anc
    refine ⟨textEntriesL cs ((Node.elem tg cs, t ++ l₂) :: anc) ++ pre, ?_, ?_⟩
    · show textEntriesL cs ((Node.elem tg cs, t ++ l₂) :: anc) ++ textEntriesL (t ++ l₂) anc = _
      rw [h1, List.append_assoc]
    · rw [List.map_append, h2, textEntriesL_s_proj]
      rfl

/-- Node projection of the heading entries. -/
theorem headingEntriesL_node_proj :
    ∀ l : NodeList, (headingEntriesL l).map (·.1) = headingNodesL l := by
  intro l
  induction l using headingNodesL.induct with
  | case1 => rfl
  | case2 s t ih =>
    show (headingEntriesL t).map (·.1) = headingNodesL t
    exact ih
  | case3 tg cs t ihcs iht =>
    show ((if headingTags.contains tg then [(Node.elem tg cs, t)] else []) ++
        headingEntriesL cs ++ headingEntriesL t).map (·.1) = _
    by_cases hc : headingTags.contains tg = true
    · simp only [if_pos hc, List.map_append, List.map_cons, List.map_nil, ihcs, iht]
      show ([Node.elem tg cs] ++ headingNodesL cs) ++ headingNodesL t =
        (if headingTags.contains tg then [Node.elem tg cs] else []) ++
          headingNodesL cs ++ headingNodesL t
      rw [if_pos hc]
    · simp only [if_neg hc, List.map_append, List.map_nil, ihcs, iht]
      show ([] ++ headingNodesL cs) ++ headingNodesL t =
        (if headingTags.contains tg then [Node.elem tg cs] else []) ++
          headingNodesL cs ++ headingNodesL t
      rw [if_neg hc]

/-- Splitting the heading entries of an appended sibling list. -/
theorem headingEntriesL_append :
    ∀ l₁ l₂ : NodeList,
      ∃ pre, headingEntriesL (l₁ ++ l₂) = pre ++ headingEntriesL l₂ ∧
        pre.map (·.1) = headingNodesL l₁ := by
  intro l₁
  induction l₁ using headingNodesL.induct with
  | case1 => intro l₂; exact ⟨[], rfl, rfl⟩
  | case2 s t ih =>
    intro l₂
    obtain ⟨pre, h1, h2⟩ := ih l₂
    refine ⟨pre, ?_, ?_⟩
    · show headingEntriesL (t ++ l₂) = _
      exact h1
    · exact h2
  | case3 tg cs t ihcs iht =>
    intro l₂
    obtain ⟨pre, h1, h2⟩ := iht l₂
    refine ⟨(if headingTags.contains tg then [(Node.elem tg cs, t ++ l₂)] else []) ++
      headingEntriesL cs ++ pre, ?_, ?_⟩
    · show (if headingTags.contains tg then [(Node.elem tg cs, t ++ l₂)] else []) ++
        headingEntriesL cs ++ headingEntriesL (t ++ l₂) = _
      rw [h1, List.append_assoc, List.append_assoc, List.append_assoc]
    · rw [List.map_append, List.map_append, h2, headingEntriesL_node_proj]
      by_cases hc : headingTags.contains tg = true
      · simp only [if_pos hc, List.map_cons, List.map_nil]
        show ([Node.elem tg cs] ++ headingNodesL cs) ++ headingNodesL t =
          (if headingTags.contains tg then [Node.elem tg cs] else []) ++
            headingNodesL cs ++ headingNodesL t
        rw [if_pos hc]
      · simp only [if_neg hc, List.map_nil]
        show ([] ++ headingNodesL cs) ++ headingNodesL t =
          (if headingTags.contains tg then [Node.elem tg cs] else []) ++
            headingNodesL cs ++ headingNodesL t
        rw [if_neg hc]

/-- The sibling walk ignores everything at and after a stopping sibling. -/
theorem collectSibs_append_stop :
    ∀ (l : NodeList) (n : Node) (t : NodeList), sibStops n = true →
      collectSibs (l ++ .cons n t) = collectSibs l := by
  intro l
  induction l using textsOfL.induct with
  | case1 =>
    intro n t hstop
    show collectSibs (.cons n t) = []
    unfold collectSibs
    rw [if_pos hstop]
  | case2 s t' ih =>
    intro n t hstop
    show collectSibs (.cons (.text s) (t' ++ .cons n t)) = _
    unfold collectSibs
    rw [ih n t hstop]
  | case3 tg cs t' ihcs iht =>
    intro n t hstop
    show collectSibs (.cons (.elem tg cs) (t' ++ .cons n t)) = _
    unfold collectSibs
    by_cases hs : sibStops (Node.elem tg cs) = true
    · rw [if_pos hs, if_pos hs]
    · rw [if_neg hs, if_neg hs, iht n t hstop]

/-- Heading tags are not block tags, and they start with `h`. -/
theorem headingTag_facts (tg : String) (h : headingTags.contains tg = true) :
    blockTags.contains tg = false ∧ startsWithH tg = true := by
  have : tg = "h1" ∨ tg = "h2" ∨ tg = "h3" ∨ tg = "h4" ∨ tg = "h5" ∨ tg = "h6" := by
    have hm : tg ∈ headingTags := by
      simpa using h
    simpa [headingTags] using hm
  rcases this with rfl | rfl | rfl | rfl | rfl | rfl <;> exact ⟨rfl, rfl⟩

/-- A marker section: a heading element whose only child is the marker word,
followed by the section body. -/
def markerSection (h : String) (w : String) (body : NodeList) : NodeList :=
  .cons (Node.elem h (.cons (.text w) .nil)) body

/-- Locating a marker word whose section sits between clean surroundings:
pattern 1 and pattern 1b fail everywhere (no text outside the section
heading mentions the word, and the heading has no block ancestor), pattern 2
selects the section heading, and the result is the sibling walk from it. -/
theorem extractMarker_at_section
    (w : String) (h : String) (body P Q : NodeList)
    (hh : headingTags.contains h = true)
    (hw_strip : stripChars w.data = w.data)
    (hw_colon : containsS (w.data ++ [':']) w.data = false)
    (htextP : ∀ s ∈ textsOfL P, containsS w.data s = false)
    (htextB : ∀ s ∈ textsOfL body, containsS w.data s = false)
    (htextQ : ∀ s ∈ textsOfL Q, containsS w.data s = false)
    (hheadP : ∀ n ∈ headingNodesL P,
      (lowerChars (getTextN n) == lowerChars w.data) = false) :
    extractMarker w (P ++ markerSection h w (body ++ Q)) =
      joinParts (collectSibs (body ++ Q)) := by
  have hsecText : getTextN (Node.elem h (.cons (.text w) .nil)) = w.data := by
    show getTextStripL (.cons (.text w) .nil) = w.data
    show stripChars w.data ++ [] = w.data
    rw [List.append_nil, hw_strip]
  obtain ⟨preP, hsplitP, hmapP⟩ :=
    textEntriesL_append P (markerSection h w (body ++ Q))
      [(Node.elem "[document]" (P ++ markerSection h w (body ++ Q)), NodeList.nil)]
  obtain ⟨preB, hsplitB, hmapB⟩ :=
    textEntriesL_append body Q
      [(Node.elem "[document]" (P ++ markerSection h w (body ++ Q)), NodeList.nil)]
  -- the single entry contributed by the section heading
  have hsecEntries : textEntriesL (markerSection h w (body ++ Q))
      [(Node.elem "[document]" (P ++ markerSection h w (body ++ Q)), NodeList.nil)] =
      mkEntry w ((Node.elem h (.cons (.text w) .nil), body ++ Q) ::
        [(Node.elem "[document]" (P ++ markerSection h w (body ++ Q)), NodeList.nil)]) ::
      textEntriesL (body ++ Q)
        [(Node.elem "[document]" (P ++ markerSection h w (body ++ Q)), NodeList.nil)] := rfl
  have hblockNone : (mkEntry w ((Node.elem h (.cons (.text w) .nil), body ++ Q) ::
      [(Node.elem "[document]" (P ++ markerSection h w (body ++ Q)), NodeList.nil)])).blockText
      = none := by
    unfold mkEntry
    dsimp only
    rw [List.find?_cons_of_neg _ (by
      show ¬ (blockTags.contains (tagOfNode (Node.elem h (.cons (.text w) .nil))) = true)
      show ¬ (blockTags.contains h = true)
      rw [(headingTag_facts h hh).1]
      exact Bool.false_ne_true)]
    rw [List.find?_cons_of_neg _ (by
      show ¬ (blockTags.contains
        (tagOfNode (Node.elem "[document]" (P ++ markerSection h w (body ++ Q)))) = true)
      show ¬ (blockTags.contains "[document]" = true)
      decide)]
    rfl
  -- every entry of the document, by provenance
  have hmem : ∀ e ∈ textEntriesL (P ++ markerSection h w (body ++ Q))
      [(Node.elem "[document]" (P ++ markerSection h w (body ++ Q)), NodeList.nil)],
      e.s ∈ textsOfL P ∨
      e = mkEntry w ((Node.elem h (.cons (.text w) .nil), body ++ Q) ::
        [(Node.elem "[document]" (P ++ markerSection h w (body ++ Q)), NodeList.nil)]) ∨
      e.s ∈ textsOfL body ∨ e.s ∈ textsOfL Q := by
    intro e he
    rw [hsplitP, hsecEntries, hsplitB] at he
    rcases List.mem_append.mp he with heP | heRest
    · exact Or.inl (by rw [← hmapP]; exact List.mem_map_of_mem _ heP)
    · rcases List.mem_cons.mp heRest with heW | heBQ
      · exact Or.inr (Or.inl heW)
      · rcases List.mem_append.mp heBQ with heB | heQ
        · exact Or.inr (Or.inr (Or.inl (by rw [← hmapB]; exact List.mem_map_of_mem _ heB)))
        · exact Or.inr (Or.inr (Or.inr (by
            rw [← textEntriesL_s_proj Q
              [(Node.elem "[document]" (P ++ markerSection h w (body ++ Q)), NodeList.nil)]]
            exact List.mem_map_of_mem _ heQ)))
  -- pattern 1 finds nothing
  have hfind1 : (textEntriesL (P ++ markerSection h w (body ++ Q))
      [(Node.elem "[document]" (P ++ markerSection h w (body ++ Q)), NodeList.nil)]).find?
        (fun e => containsS (w.data ++ [':']) e.s) = none := by
    apply List.find?_eq_none.mpr
    intro e he hpred
    have hws : containsS w.data e.s = true := containsS_mono_pat w.data [':'] e.s hpred
    rcases hmem e he with hP | hW | hB | hQ
    · rw [htextP e.s hP] at hws; cases hws
    · rw [hW] at hpred
      have : e.s = w.data := by rw [hW]; rfl
      rw [show (mkEntry w ((Node.elem h (.cons (.text w) .nil), body ++ Q) ::
        [(Node.elem "[document]" (P ++ markerSection h w (body ++ Q)), NodeList.nil)])).s
          = w.data from rfl] at hpred
      rw [hw_colon] at hpred; cases hpred
    · rw [htextB e.s hB] at hws; cases hws
    · rw [htextQ e.s hQ] at hws; cases hws
  -- pattern 1b finds nothing
  have hfind1b : (textEntriesL (P ++ markerSection h w (body ++ Q))
      [(Node.elem "[document]" (P ++ markerSection h w (body ++ Q)), NodeList.nil)]).find?
        (fun e => containsS w.data (stripChars e.s) &&
          (match e.blockText with
           | some bt => containsS (lowerChars (w.data ++ [':'])) (lowerChars bt)
           | none => false)) = none := by
    apply List.find?_eq_none.mpr
    intro e he hpred
    rcases Bool.and_eq_true_iff.mp hpred with ⟨h1, h2⟩
    rcases hmem e he with hP | hW | hB | hQ
    · have hc := containsS_stripChars w.data e.s h1
      rw [htextP e.s hP] at hc; cases hc
    · rw [hW, hblockNone] at h2; cases h2
    · have hc := containsS_stripChars w.data e.s h1
      rw [htextB e.s hB] at hc; cases hc
    · have hc := containsS_stripChars w.data e.s h1
      rw [htextQ e.s hQ] at hc; cases hc
  -- pattern 2 selects the section heading
  have hfind2 : (headingEntriesL (P ++ markerSection h w (body ++ Q))).find?
      (fun hd => lowerChars (getTextN hd.1) == lowerChars w.data) =
      some (Node.elem h (.cons (.text w) .nil), body ++ Q) := by
    obtain ⟨preH, hs1, hm1⟩ := headingEntriesL_append P (markerSection h w (body ++ Q))
    rw [hs1]
    have hsecH : headingEntriesL (markerSection h w (body ++ Q)) =
        (Node.elem h (.cons (.text w) .nil), body ++ Q) ::
          headingEntriesL (body ++ Q) := by
      show (if headingTags.contains h then
          [(Node.elem h (.cons (.text w) .nil), body ++ Q)] else []) ++
        headingEntriesL (.cons (.text w) .nil) ++ headingEntriesL (body ++ Q) = _
      rw [if_pos hh]
      rfl
    rw [hsecH, List.find?_append]
    have hpreNone : preH.find?
        (fun hd => lowerChars (getTextN hd.1) == lowerChars w.data) = none := by
      apply List.find?_eq_none.mpr
      intro x hx hpred
      have : x.1 ∈ headingNodesL P := by
        rw [← hm1]; exact List.mem_map_of_mem _ hx
      rw [hheadP x.1 this] at hpred; cases hpred
    rw [hpreNone]
    rw [List.find?_cons_of_pos _ (by
      show (lowerChars (getTextN (Node.elem h (.cons (.text w) .nil))) ==
        lowerChars w.data) = true
      rw [hsecText]
      simp)]
    rfl
  -- assemble
  simp only [extractMarker]
  rw [hfind1, hfind1b, hfind2]

/-- **C9 (amended).** For documents made of an Abstract section and a Bio
section (heading marker followed by body) in either order, the Abstract
extraction returns the same text on both orders, and likewise the Bio
extraction, provided the marker words appear only as the section headings:
no text node of either body mentions "Abstract" or "Bio", and no heading
inside either body reads as the marker words.  (Without that proviso the
global first-match colon-pattern search can cross section boundaries — see
the counterexample.) -/
theorem raw_extract_order_invariant
    (ha hb : String) (bodyA bodyB : NodeList)
    (hha : headingTags.contains ha = true)
    (hhb : headingTags.contains hb = true)
    (htextA : ∀ s ∈ textsOfL bodyA,
      containsS "Abstract".data s = false ∧ containsS "Bio".data s = false)
    (htextB : ∀ s ∈ textsOfL bodyB,
      containsS "Abstract".data s = false ∧ containsS "Bio".data s = false)
    (hheadA : ∀ n ∈ headingNodesL bodyA,
      (lowerChars (getTextN n) == lowerChars "Abstract".data) = false ∧
      (lowerChars (getTextN n) == lowerChars "Bio".data) = false)
    (hheadB : ∀ n ∈ headingNodesL bodyB,
      (lowerChars (getTextN n) == lowerChars "Abstract".data) = false ∧
      (lowerChars (getTextN n) == lowerChars "Bio".data) = false) :
    extract_abstract_from_raw_details
        (markerSection ha "Abstract" bodyA ++ markerSection hb "Bio" bodyB) =
      extract_abstract_from_raw_details
        (markerSection hb "Bio" bodyB ++ markerSection ha "Abstract" bodyA) ∧
    extract_bio_from_raw_details
        (markerSection ha "Abstract" bodyA ++ markerSection hb "Bio" bodyB) =
      extract_bio_from_raw_details
        (markerSection hb "Bio" bodyB ++ markerSection ha "Abstract" bodyA) := by
  have hBtexts : textsOfL (markerSection hb "Bio" bodyB) =
      "Bio".data :: textsOfL bodyB := rfl
  have hAtexts : textsOfL (markerSection ha "Abstract" bodyA) =
      "Abstract".data :: textsOfL bodyA := rfl
  have hBheads : headingNodesL (markerSection hb "Bio" bodyB) =
      Node.elem hb (.cons (.text "Bio") .nil) :: headingNodesL bodyB := by
    show (if headingTags.contains hb then [Node.elem hb (.cons (.text "Bio") .nil)]
        else []) ++ headingNodesL (.cons (.text "Bio") .nil) ++ headingNodesL bodyB = _
    rw [if_pos hhb]
    rfl
  have hAheads : headingNodesL (markerSection ha "Abstract" bodyA) =
      Node.elem ha (.cons (.text "Abstract") .nil) :: headingNodesL bodyA := by
    show (if headingTags.contains ha then [Node.elem ha (.cons (.text "Abstract") .nil)]
        else []) ++ headingNodesL (.cons (.text "Abstract") .nil) ++ headingNodesL bodyA = _
    rw [if_pos hha]
    rfl
  have hstopB : sibStops (Node.elem hb (.cons (.text "Bio") .nil)) = true :=
    (headingTag_facts hb hhb).2
  have hstopA : sibStops (Node.elem ha (.cons (.text "Abstract") .nil)) = true :=
    (headingTag_facts ha hha).2
  constructor
  · -- Abstract extraction
    have e1 : extractMarker "Abstract"
        (markerSection ha "Abstract" bodyA ++ markerSection hb "Bio" bodyB) =
        joinParts (collectSibs (bodyA ++ markerSection hb "Bio" bodyB)) := by
      have := extractMarker_at_section "Abstract" ha bodyA NodeList.nil
        (markerSection hb "Bio" bodyB) hha (by decide) (by decide)
        (by intro s hs; cases hs)
        (fun s hs => (htextA s hs).1)
        (by
          intro s hs
          rw [hBtexts] at hs
          rcases List.mem_cons.mp hs with rfl | hmem
          · decide
          · exact (htextB s hmem).1)
        (by intro n hn; cases hn)
      calc extractMarker "Abstract"
            (markerSection ha "Abstract" bodyA ++ markerSection hb "Bio" bodyB)
          = extractMarker "Abstract"
            (NodeList.nil ++ markerSection ha "Abstract"
              (bodyA ++ markerSection hb "Bio" bodyB)) := by
            show _ = extractMarker "Abstract"
              (markerSection ha "Abstract" (bodyA ++ markerSection hb "Bio" bodyB))
            rfl
        _ = joinParts (collectSibs (bodyA ++ markerSection hb "Bio" bodyB)) := this
    have e2 : extractMarker "Abstract"
        (markerSection hb "Bio" bodyB ++ markerSection ha "Abstract" bodyA) =
        joinParts (collectSibs (bodyA ++ NodeList.nil)) := by
      have := extractMarker_at_section "Abstract" ha bodyA
        (markerSection hb "Bio" bodyB) NodeList.nil hha (by decide) (by decide)
        (by
          intro s hs
          rw [hBtexts] at hs
          rcases List.mem_cons.mp hs with rfl | hmem
          · decide
          · exact (htextB s hmem).1)
        (fun s hs => (htextA s hs).1)
        (by intro s hs; cases hs)
        (by
          intro n hn
          rw [hBheads] at hn
          rcases List.mem_cons.mp hn with rfl | hmem
          · show (lowerChars (getTextStripL (.cons (.text "Bio") .nil)) ==
              lowerChars "Abstract".data) = false
            decide
          · exact (hheadB n hmem).1)
      calc extractMarker "Abstract"
            (markerSection hb "Bio" bodyB ++ markerSection ha "Abstract" bodyA)
          = extractMarker "Abstract"
            (markerSection hb "Bio" bodyB ++
              markerSection ha "Abstract" (bodyA ++ NodeList.nil)) := by
            rw [NodeList.append_nil]
        _ = joinParts (collectSibs (bodyA ++ NodeList.nil)) := this
    rw [show extract_abstract_from_raw_details
        (markerSection ha "Abstract" bodyA ++ markerSection hb "Bio" bodyB) =
        ⟨extractMarker "Abstract"
          (markerSection ha "Abstract" bodyA ++ markerSection hb "Bio" bodyB)⟩ from rfl]
    rw [show extract_abstract_from_raw_details
        (markerSection hb "Bio" bodyB ++ markerSection ha "Abstract" bodyA) =
        ⟨extractMarker "Abstract"
          (markerSection hb "Bio" bodyB ++ markerSection ha "Abstract" bodyA)⟩ from rfl]
    rw [e1, e2, NodeList.append_nil]
    rw [show markerSection hb "Bio" bodyB =
      NodeList.cons (Node.elem hb (.cons (.text "Bio") .nil)) bodyB from rfl]
    rw [collectSibs_append_stop bodyA _ bodyB hstopB]
  · -- Bio extraction
    have e1 : extractMarker "Bio"
        (markerSection ha "Abstract" bodyA ++ markerSection hb "Bio" bodyB) =
        joinParts (collectSibs (bodyB ++ NodeList.nil)) := by
      have := extractMarker_at_section "Bio" hb bodyB
        (markerSection ha "Abstract" bodyA) NodeList.nil hhb (by decide) (by decide)
        (by
          intro s hs
          rw [hAtexts] at hs
          rcases List.mem_cons.mp hs with rfl | hmem
          · decide
          · exact (htextA s hmem).2)
        (fun s hs => (htextB s hs).2)
        (by intro s hs; cases hs)
        (by
          intro n hn
          rw [hAheads] at hn
          rcases List.mem_cons.mp hn with rfl | hmem
          · show (lowerChars (getTextStripL (.cons (.text "Abstract") .nil)) ==
              lowerChars "Bio".data) = false
            decide
          · exact (hheadA n hmem).2)
      calc extractMarker "Bio"
            (markerSection ha "Abstract" bodyA ++ markerSection hb "Bio" bodyB)
          = extractMarker "Bio"
            (markerSection ha "Abstract" bodyA ++
              markerSection hb "Bio" (bodyB ++ NodeList.nil)) := by
            rw [NodeList.append_nil]
        _ = joinParts (collectSibs (bodyB ++ NodeList.nil)) := this
    have e2 : extractMarker "Bio"
        (markerSection hb "Bio" bodyB ++ markerSection ha "Abstract" bodyA) =
        joinParts (collectSibs (bodyB ++ markerSection ha "Abstract" bodyA)) := by
      have := extractMarker_at_section "Bio" hb bodyB NodeList.nil
        (markerSection ha "Abstract" bodyA) hhb (by decide) (by decide)
        (by intro s hs; cases hs)
        (fun s hs => (htextB s hs).2)
        (by
          intro s hs
          rw [hAtexts] at hs
          rcases List.mem_cons.mp hs with rfl | hmem
          · decide
          · exact (htextA s hmem).2)
        (by intro n hn; cases hn)
      calc extractMarker "Bio"
            (markerSection hb "Bio" bodyB ++ markerSection ha "Abstract" bodyA)
          = extractMarker "Bio"
            (NodeList.nil ++ markerSection hb "Bio"
              (bodyB ++ markerSection ha "Abstract" bodyA)) := by
            show _ = extractMarker "Bio"
              (markerSection hb "Bio" (bodyB ++ markerSection ha "Abstract" bodyA))
            rfl
        _ = joinParts (collectSibs (bodyB ++ markerSection ha "Abstract" bodyA)) := this
    rw [show extract_bio_from_raw_details
        (markerSection ha "Abstract" bodyA ++ markerSection hb "Bio" bodyB) =
        ⟨extractMarker "Bio"
          (markerSection ha "Abstract" bodyA ++ markerSection hb "Bio" bodyB)⟩ from rfl]
    rw [show extract_bio_from_raw_details
        (markerSection hb "Bio" bodyB ++ markerSection ha "Abstract" bodyA) =
        ⟨extractMarker "Bio"
          (markerSection hb "Bio" bodyB ++ markerSection ha "Abstract" bodyA)⟩ from rfl]
    rw [e1, e2, NodeList.append_nil]
    rw [show markerSection ha "Abstract" bodyA =
      NodeList.cons (Node.elem ha (.cons (.text "Abstract") .nil)) bodyA from rfl]
    rw [collectSibs_append_stop bodyB _ bodyA hstopA]

def bodyAbsEx : NodeList := NodeList.ofList [Node.elem "p" (NodeList.ofList [Node.text "We study X."])]

def bodyBioEx : NodeList := NodeList.ofList [Node.elem "p" (NodeList.ofList [Node.text "Prof. Y."])]

theorem raw_extract_order_invariant_witness :
    extract_abstract_from_raw_details
        (markerSection "h2" "Abstract" bodyAbsEx ++ markerSection "h2" "Bio" bodyBioEx) =
      extract_abstract_from_raw_details
        (markerSection "h2" "Bio" bodyBioEx ++ markerSection "h2" "Abstract" bodyAbsEx) ∧
    extract_bio_from_raw_details
        (markerSection "h2" "Abstract" bodyAbsEx ++ markerSection "h2" "Bio" bodyBioEx) =
      extract_bio_from_raw_details
        (markerSection "h2" "Bio" bodyBioEx ++ markerSection "h2" "Abstract" bodyAbsEx) :=
  raw_extract_order_invariant "h2" "h2" bodyAbsEx bodyBioEx
    (by decide) (by decide) (by decide) (by decide) (by decide) (by decide)
